import Mathlib

/-!
Verification development for the `webresource` Go package: a dependency
resolver for web-asset modules, an in-memory virtual filesystem
(`FileSet`), and a file walker.  Go strings are modelled as `List Char`,
byte slices as `List Nat`, and Go's mutating methods as state-passing
functions; a Go `panic` is modelled as `none` / `Except.error`.
-/

namespace Webresource

/-- A Go string, modelled as its character list. -/
abbrev GoStr := List Char

/-- One step of Go's `path.Clean` element processing on a rooted path
(`src/fs.go:20`, `src/unnamed/part_000:22` — `path.Clean("/" + p)`):
an empty or `"."` element is dropped, a `".."` element pops the last
retained component (and is dropped at the root), and any other element is
appended. -/
def cleanAcc (acc : List GoStr) (c : GoStr) : List GoStr :=
  if c = [] ∨ c = ['.'] then acc
  else if c = ['.', '.'] then acc.dropLast
  else acc ++ [c]

/-- `fullPathSplit` (`src/fs.go:16-36`, `src/unnamed/part_000:18-38`):
`path.Clean("/" + p)` retains exactly the slash-separated elements of
`'/' :: p` processed by `cleanAcc`, and the source's subsequent
`path.Split` / `TrimSuffix` loop (followed by the reversal) recovers that
retained component list in order. -/
def fullPathSplit (p : GoStr) : List GoStr :=
  (('/' :: p).splitOn '/').foldl cleanAcc []

/-- Rebuild the absolute path denoted by a component list: a leading
separator followed by the components joined with separators. -/
def joinAbs (comps : List GoStr) : GoStr :=
  '/' :: List.intercalate ['/'] comps

/-- A component that `cleanAcc` can have retained: nonempty, not a dot
element, and slash-free. -/
def goodComp (c : GoStr) : Prop :=
  c ≠ [] ∧ c ≠ ['.'] ∧ c ≠ ['.', '.'] ∧ '/' ∉ c

theorem splitOnP_sep_not_mem (p : Char → Bool) :
    ∀ (xs : GoStr), ∀ l ∈ xs.splitOnP p, ∀ x ∈ l, ¬ p x = true := by
  intro xs
  induction xs with
  | nil =>
    intro l hl x hx
    simp [List.splitOnP_nil] at hl
    subst hl
    simp at hx
  | cons a tl ih =>
    intro l hl x hx
    rw [List.splitOnP_cons] at hl
    by_cases ha : p a
    · rw [if_pos ha] at hl
      rcases List.mem_cons.mp hl with h | h
      · subst h; simp at hx
      · exact ih l h x hx
    · rw [if_neg ha] at hl
      rcases h' : tl.splitOnP p with _ | ⟨hd, rest⟩
      · exact absurd h' (List.splitOnP_ne_nil p tl)
      · rw [h'] at hl
        simp only [List.modifyHead] at hl
        rcases List.mem_cons.mp hl with h | h
        · subst h
          rcases List.mem_cons.mp hx with h | h
          · subst h; exact ha
          · exact ih hd (h' ▸ List.mem_cons_self hd rest) x h
        · exact ih l (h' ▸ List.mem_cons.mpr (Or.inr h)) x hx

theorem mem_splitOn_slash_free :
    ∀ (xs : GoStr), ∀ l ∈ xs.splitOn '/', '/' ∉ l := by
  intro xs l hl hm
  have := splitOnP_sep_not_mem (· == '/') xs l hl '/' hm
  simp at this

theorem foldl_cleanAcc_good :
    ∀ (cs : List GoStr) (acc : List GoStr),
      (∀ c ∈ acc, goodComp c) → (∀ c ∈ cs, '/' ∉ c) →
      ∀ c ∈ cs.foldl cleanAcc acc, goodComp c := by
  intro cs
  induction cs with
  | nil => intro acc hacc _ c hc; exact hacc c hc
  | cons a tl ih =>
    intro acc hacc hcs c hc
    simp only [List.foldl_cons] at hc
    refine ih (cleanAcc acc a) ?_ (fun c hc => hcs c (List.mem_cons.mpr (Or.inr hc))) c hc
    intro d hd
    unfold cleanAcc at hd
    split at hd
    · exact hacc d hd
    · split at hd
      · exact hacc d (List.dropLast_sublist acc |>.subset hd)
      · rcases List.mem_append.mp hd with h | h
        · exact hacc d h
        · rename_i h1 h2
          simp only [List.mem_singleton] at h
          subst h
          push_neg at h1
          exact ⟨h1.1, h1.2, h2, hcs d (List.mem_cons.mpr (Or.inl rfl))⟩

theorem foldl_cleanAcc_of_good :
    ∀ (cs : List GoStr) (acc : List GoStr),
      (∀ c ∈ cs, goodComp c) → cs.foldl cleanAcc acc = acc ++ cs := by
  intro cs
  induction cs with
  | nil => intro acc _; simp
  | cons a tl ih =>
    intro acc hcs
    have ha : goodComp a := hcs a (List.mem_cons.mpr (Or.inl rfl))
    simp only [List.foldl_cons]
    rw [show cleanAcc acc a = acc ++ [a] by
      unfold cleanAcc
      rw [if_neg (by push_neg; exact ⟨ha.1, ha.2.1⟩), if_neg ha.2.2.1]]
    rw [ih (acc ++ [a]) (fun c hc => hcs c (List.mem_cons.mpr (Or.inr hc)))]
    simp

theorem fullPathSplit_good :
    ∀ (p : GoStr), ∀ c ∈ fullPathSplit p, goodComp c := by
  intro p
  exact foldl_cleanAcc_good _ [] (by intro c hc; simp at hc)
    (fun c hc => mem_splitOn_slash_free _ c hc)

theorem splitOn_joinAbs (comps : List GoStr) (hne : comps ≠ [])
    (h : ∀ c ∈ comps, goodComp c) :
    ('/' :: joinAbs comps).splitOn '/' = [] :: [] :: comps := by
  unfold joinAbs
  have step : ∀ (xs : GoStr), ('/' :: xs).splitOn '/' = [] :: xs.splitOn '/' := by
    intro xs
    simp [List.splitOn, List.splitOnP_cons]
  rw [step, step]
  have : List.intercalate ['/'] comps = ['/'].intercalate comps := rfl
  rw [this, List.splitOn_intercalate comps '/' (fun l hl => (h l hl).2.2.2) hne]

/-- C2: the shared path normalization maps `/`, `//` and `../` to the empty
component sequence, `/a/b/../c` to `[a, c]`, the relative-looking `a/b` to
`[a, b]`, and `//a/b` to `[a, b]`; and it is idempotent — re-normalizing
the absolute path rebuilt from the resulting components yields the same
component sequence. -/
theorem fullPathSplit_spec :
    (fullPathSplit "/".toList = [] ∧
     fullPathSplit "//".toList = [] ∧
     fullPathSplit "../".toList = [] ∧
     fullPathSplit "/a/b/../c".toList = ["a".toList, "c".toList] ∧
     fullPathSplit "a/b".toList = ["a".toList, "b".toList] ∧
     fullPathSplit "//a/b".toList = ["a".toList, "b".toList]) ∧
    ∀ p : GoStr, fullPathSplit (joinAbs (fullPathSplit p)) = fullPathSplit p := by
  constructor
  · refine ⟨by decide, by decide, by decide, by decide, by decide, by decide⟩
  · intro p
    rcases hc : fullPathSplit p with _ | ⟨c, rest⟩
    · decide
    · conv_lhs => rw [fullPathSplit]
      rw [splitOn_joinAbs (c :: rest) (by simp) (hc ▸ fullPathSplit_good p)]
      simp only [List.foldl_cons]
      rw [show cleanAcc [] [] = [] by rfl, show cleanAcc [] [] = [] by rfl]
      exact foldl_cleanAcc_of_good _ [] (hc ▸ fullPathSplit_good p)

/-! ### Module dependency resolver (`src/webresource.go`) -/

/-- A module: a name and the list of modules it requires
(`src/webresource.go:18-22`).  The `Module` interface's dependency graph is
required by the package contract to be acyclic, so a module value is
faithfully represented as a finite tree; modules with equal names are
treated as identical by the resolver. -/
inductive Module where
  | mk (name : GoStr) (requires : List Module)

/-- `Name()` accessor. -/
def Module.name : Module → GoStr
  | .mk n _ => n

/-- `Requires()` accessor. -/
def Module.requires : Module → List Module
  | .mk _ rs => rs

mutual

/-- Boolean equality on modules (name and requirements). -/
def Module.beq : Module → Module → Bool
  | .mk n rs, .mk n' rs' => n = n' && Module.beqList rs rs'

/-- Boolean equality on module lists. -/
def Module.beqList : List Module → List Module → Bool
  | [], [] => true
  | a :: as, b :: bs => Module.beq a b && Module.beqList as bs
  | _, _ => false

end

mutual

theorem Module.beq_iff : ∀ (a b : Module), Module.beq a b = true ↔ a = b
  | .mk n rs, .mk n' rs' => by
    simp only [Module.beq, Bool.and_eq_true, decide_eq_true_eq, Module.mk.injEq]
    exact and_congr Iff.rfl (Module.beqList_iff rs rs')

theorem Module.beqList_iff : ∀ (as bs : List Module), Module.beqList as bs = true ↔ as = bs
  | [], [] => by simp [Module.beqList]
  | [], _ :: _ => by simp [Module.beqList]
  | _ :: _, [] => by simp [Module.beqList]
  | a :: as, b :: bs => by
    simp only [Module.beqList, Bool.and_eq_true, List.cons.injEq]
    exact and_congr (Module.beq_iff a b) (Module.beqList_iff as bs)

end

instance : DecidableEq Module := fun a b => decidable_of_iff _ (Module.beq_iff a b)

/-- A `ModuleList` (`src/webresource.go:60`). -/
abbrev ModuleList := List Module

mutual

/-- Size measure used for termination of the resolver. -/
def modSize : Module → Nat
  | .mk _ rs => modListSize rs + 1

/-- Total size of a module list. -/
def modListSize : List Module → Nat
  | [] => 0
  | m :: rest => modSize m + modListSize rest

end

theorem modSize_eq (m : Module) : modSize m = modListSize m.requires + 1 := by
  cases m
  simp [modSize, Module.requires]

theorem modListSize_eq_sum (l : List Module) : modListSize l = (l.map modSize).sum := by
  induction l with
  | nil => rfl
  | cons m rest ih => simp [modListSize, ih]

theorem modListSize_perm {l l' : List Module} (h : l.Perm l') :
    modListSize l = modListSize l' := by
  rw [modListSize_eq_sum, modListSize_eq_sum]
  exact (h.map modSize).sum_eq

theorem modSize_pos (m : Module) : 0 < modSize m := by
  rw [modSize_eq]; omega

/-- The comparison used by `sort.Sort(r2)` in `Resolve`
(`src/webresource.go:81`, `Less` compares `Name()` with Go's `<` on
strings, which is lexicographic on the byte — hence character — sequence). -/
def modLe (a b : Module) : Bool := decide (a.name ≤ b.name)

/-- The `sort.Sort(r2)` step of `Resolve` (`src/webresource.go:33-35`):
a comparison sort by name.  `sort.Sort` is some comparison sort; on inputs
with pairwise-distinct names every comparison sort agrees, and `mergeSort`
is used as the model. -/
def sortByName (ms : List Module) : List Module := ms.mergeSort modLe

/-- `ModuleList.Named` (`src/webresource.go:62-69`): first module with the
given name, if any. -/
def Named : List Module → GoStr → Option Module
  | [], _ => none
  | m :: rest, n => if m.name = n then some m else Named rest n

/-- One `if ret.Named(x.Name()) == nil { ret = append(ret, x) }` step of
`Resolve` (`src/webresource.go:43-52`). -/
def addIfAbsent (ret : List Module) (m : Module) : List Module :=
  if (Named ret m.name).isSome then ret else ret ++ [m]

mutual

/-- `Resolve` (`src/webresource.go:28-57`): sort the input by name, then
fold over it, appending each module's recursively resolved requirements
and then the module itself, skipping names already present. -/
def Resolve (r : List Module) : List Module :=
  resolveSorted [] (sortByName r)
termination_by 2 * modListSize r + 1
decreasing_by
  have h := modListSize_perm (List.mergeSort_perm r modLe)
  simp only [sortByName]
  omega

/-- The `for _, m := range r2` loop body of `Resolve`
(`src/webresource.go:37-54`), with `ret` the accumulated output. -/
def resolveSorted (ret : List Module) : List Module → List Module
  | [] => ret
  | m :: rest =>
      resolveSorted (addIfAbsent ((Resolve m.requires).foldl addIfAbsent ret) m) rest
termination_by l => 2 * modListSize l
decreasing_by
  · have h := modSize_eq m
    simp only [modListSize]
    omega
  · have h := modSize_pos m
    simp only [modListSize]
    omega

end

/-- The names of a module list, in order. -/
def names (l : List Module) : List GoStr := l.map Module.name

mutual

/-- All modules reachable from a module through `Requires()`, the module
itself included (dependencies listed first). -/
def allMods : Module → List Module
  | .mk n rs => allModsList rs ++ [.mk n rs]

/-- All modules reachable from the members of a list. -/
def allModsList : List Module → List Module
  | [] => []
  | m :: rest => allMods m ++ allModsList rest

end

/-- The names of every module reachable from the members of a list. -/
def reachNames (ms : List Module) : List GoStr := names (allModsList ms)

theorem allMods_eq (m : Module) : allMods m = allModsList m.requires ++ [m] := by
  cases m
  simp [allMods, Module.requires]

theorem self_mem_allMods (m : Module) : m ∈ allMods m := by
  rw [allMods_eq]
  simp

theorem mem_allModsList_iff {x : Module} :
    ∀ {l : List Module}, x ∈ allModsList l ↔ ∃ m ∈ l, x ∈ allMods m := by
  intro l
  induction l with
  | nil => simp [allModsList]
  | cons m rest ih => simp [allModsList, ih]

theorem mem_allModsList_of_mem {m : Module} {l : List Module} (h : m ∈ l) :
    m ∈ allModsList l :=
  mem_allModsList_iff.mpr ⟨m, h, self_mem_allMods m⟩

mutual

theorem mem_allMods_trans : ∀ (m x y : Module),
    x ∈ allMods m → y ∈ allMods x → y ∈ allMods m
  | .mk n rs, x, y => by
    intro hx hy
    rw [allMods_eq] at hx ⊢
    rcases List.mem_append.mp hx with h | h
    · exact List.mem_append.mpr (Or.inl (mem_allModsList_trans rs x y h hy))
    · simp only [List.mem_singleton] at h
      subst h
      exact allMods_eq _ ▸ hy

theorem mem_allModsList_trans : ∀ (l : List Module) (x y : Module),
    x ∈ allModsList l → y ∈ allMods x → y ∈ allModsList l
  | [], x, y => by
    intro hx _
    simp [allModsList] at hx
  | m :: rest, x, y => by
    intro hx hy
    simp only [allModsList, List.mem_append] at hx ⊢
    rcases hx with h | h
    · exact Or.inl (mem_allMods_trans m x y h hy)
    · exact Or.inr (mem_allModsList_trans rest x y h hy)

end

theorem reachNames_nil : reachNames [] = [] := rfl

theorem reachNames_cons (m : Module) (rest : List Module) :
    reachNames (m :: rest) =
      reachNames m.requires ++ [m.name] ++ reachNames rest := by
  simp [reachNames, names, allModsList, allMods_eq m]

theorem names_subset_reachNames {n : GoStr} {l : List Module} (h : n ∈ names l) :
    n ∈ reachNames l := by
  rcases List.mem_map.mp h with ⟨m, hm, rfl⟩
  exact List.mem_map.mpr ⟨m, mem_allModsList_of_mem hm, rfl⟩

/-- The dependency-ordering invariant of a resolved sequence: each member's
reachable requirement names are all among `seen` plus the names of the
preceding members. -/
def depClosedFrom (seen : List GoStr) : List Module → Prop
  | [] => True
  | m :: rest =>
      (∀ n ∈ reachNames m.requires, n ∈ seen) ∧
      depClosedFrom (seen ++ [m.name]) rest

theorem depClosedFrom_mono :
    ∀ (l : List Module) (s s' : List GoStr), (∀ n ∈ s, n ∈ s') →
      depClosedFrom s l → depClosedFrom s' l := by
  intro l
  induction l with
  | nil => intro s s' _ _; trivial
  | cons m rest ih =>
    intro s s' hss h
    refine ⟨fun n hn => hss n (h.1 n hn), ?_⟩
    refine ih _ _ ?_ h.2
    intro n hn
    rcases List.mem_append.mp hn with h' | h'
    · exact List.mem_append.mpr (Or.inl (hss n h'))
    · exact List.mem_append.mpr (Or.inr h')

theorem depClosedFrom_append :
    ∀ (l₁ l₂ : List Module) (s : List GoStr),
      depClosedFrom s (l₁ ++ l₂) ↔
        depClosedFrom s l₁ ∧ depClosedFrom (s ++ names l₁) l₂ := by
  intro l₁
  induction l₁ with
  | nil => intro l₂ s; simp [depClosedFrom, names]
  | cons m rest ih =>
    intro l₂ s
    simp only [List.cons_append, depClosedFrom, List.append_eq]
    rw [ih]
    simp [names, List.append_assoc, and_assoc]

theorem depClosedFrom_index :
    ∀ (l : List Module) (s : List GoStr), depClosedFrom s l →
      ∀ j (hj : j < l.length), ∀ n ∈ reachNames (l.get ⟨j, hj⟩).requires,
        n ∈ s ∨ n ∈ names (l.take j) := by
  intro l
  induction l with
  | nil => intro s _ j hj; simp at hj
  | cons m rest ih =>
    intro s h j hj n hn
    cases j with
    | zero => exact Or.inl (h.1 n hn)
    | succ j =>
      have := ih (s ++ [m.name]) h.2 j (by simpa using hj) n hn
      simp only [List.take_succ_cons, names, List.map_cons]
      rcases this with h' | h'
      · rcases List.mem_append.mp h' with h'' | h''
        · exact Or.inl h''
        · simp only [List.mem_singleton] at h''
          exact Or.inr (h'' ▸ List.mem_cons_self _ _)
      · exact Or.inr (List.mem_cons.mpr (Or.inr h'))

theorem Named_eq_none_iff {l : List Module} {n : GoStr} :
    Named l n = none ↔ n ∉ names l := by
  induction l with
  | nil => simp [Named, names]
  | cons m rest ih =>
    simp only [Named, names, List.map_cons, List.mem_cons]
    by_cases h : m.name = n
    · simp [h]
    · simp only [if_neg h, ih, names]
      constructor
      · intro h' h''
        rcases h'' with h'' | h''
        · exact h (h''.symm)
        · exact h' h''
      · intro h' h''
        exact h' (Or.inr h'')

theorem Named_isSome_iff {l : List Module} {n : GoStr} :
    (Named l n).isSome = true ↔ n ∈ names l := by
  rcases h : Named l n with _ | m
  · simpa using (Named_eq_none_iff.mp h)
  · simp only [Option.isSome_some, true_iff]
    by_contra h'
    rw [Named_eq_none_iff.mpr h'] at h
    exact Option.noConfusion h

theorem names_addIfAbsent {ret : List Module} {m : Module} {n : GoStr} :
    n ∈ names (addIfAbsent ret m) ↔ n ∈ names ret ∨ n = m.name := by
  unfold addIfAbsent
  split
  · rename_i h
    simp only [iff_self_or]
    intro h'
    exact h' ▸ Named_isSome_iff.mp h
  · simp [names]

theorem mem_addIfAbsent {ret : List Module} {m x : Module}
    (h : x ∈ addIfAbsent ret m) : x ∈ ret ∨ x = m := by
  unfold addIfAbsent at h
  split at h
  · exact Or.inl h
  · simpa using h

theorem nodup_addIfAbsent {ret : List Module} {m : Module}
    (h : (names ret).Nodup) : (names (addIfAbsent ret m)).Nodup := by
  unfold addIfAbsent
  split
  · exact h
  · rename_i h'
    have hnm : m.name ∉ names ret := by
      intro hc
      rw [Named_isSome_iff.mpr hc] at h'
      exact h' rfl
    simp only [names, List.map_append, List.map_cons, List.map_nil]
    rw [List.nodup_append]
    refine ⟨h, by simp, ?_⟩
    intro a ha hb
    simp only [List.mem_cons, List.not_mem_nil, or_false] at hb
    exact hnm (hb ▸ ha)

theorem dep_addIfAbsent {ret : List Module} {m : Module}
    (h : depClosedFrom [] ret)
    (hm : ∀ n ∈ reachNames m.requires, n ∈ names ret) :
    depClosedFrom [] (addIfAbsent ret m) := by
  unfold addIfAbsent
  split
  · exact h
  · rw [depClosedFrom_append ret [m] []]
    exact ⟨h, fun n hn => by simpa using hm n hn, trivial⟩

theorem names_foldl_addIfAbsent :
    ∀ (ms ret : List Module) (n : GoStr),
      n ∈ names (ms.foldl addIfAbsent ret) ↔ n ∈ names ret ∨ n ∈ names ms := by
  intro ms
  induction ms with
  | nil => intro ret n; simp [names]
  | cons m rest ih =>
    intro ret n
    simp only [List.foldl_cons, ih, names_addIfAbsent]
    simp only [names, List.map_cons, List.mem_cons]
    tauto

theorem mem_foldl_addIfAbsent :
    ∀ (ms ret : List Module) (x : Module),
      x ∈ ms.foldl addIfAbsent ret → x ∈ ret ∨ x ∈ ms := by
  intro ms
  induction ms with
  | nil => intro ret x h; exact Or.inl h
  | cons m rest ih =>
    intro ret x h
    rcases ih _ x h with h' | h'
    · rcases mem_addIfAbsent h' with h'' | h''
      · exact Or.inl h''
      · exact Or.inr (h'' ▸ List.mem_cons_self _ _)
    · exact Or.inr (List.mem_cons.mpr (Or.inr h'))

theorem nodup_foldl_addIfAbsent :
    ∀ (ms ret : List Module), (names ret).Nodup →
      (names (ms.foldl addIfAbsent ret)).Nodup := by
  intro ms
  induction ms with
  | nil => intro ret h; exact h
  | cons m rest ih => intro ret h; exact ih _ (nodup_addIfAbsent h)

theorem dep_foldl_addIfAbsent :
    ∀ (ms : List Module) (seen : List GoStr) (ret : List Module),
      depClosedFrom [] ret → depClosedFrom seen ms →
      (∀ n ∈ seen, n ∈ names ret) →
      depClosedFrom [] (ms.foldl addIfAbsent ret) := by
  intro ms
  induction ms with
  | nil => intro seen ret h _ _; exact h
  | cons m rest ih =>
    intro seen ret hret hms hseen
    simp only [List.foldl_cons]
    have hm : ∀ n ∈ reachNames m.requires, n ∈ names ret :=
      fun n hn => hseen n (hms.1 n hn)
    refine ih (seen ++ [m.name]) _ (dep_addIfAbsent hret hm) hms.2 ?_
    intro n hn
    rcases List.mem_append.mp hn with h' | h'
    · exact names_addIfAbsent.mpr (Or.inl (hseen n h'))
    · simp only [List.mem_singleton] at h'
      exact names_addIfAbsent.mpr (Or.inr h')

/-- Everything `Resolve` guarantees about its output: dependency
ordering, deduplicated names, exactly the reachable names, and membership
in the reachable module set. -/
def ResolveSpec (ms out : List Module) : Prop :=
  depClosedFrom [] out ∧
  (names out).Nodup ∧
  (∀ n, n ∈ names out ↔ n ∈ reachNames ms) ∧
  (∀ x ∈ out, x ∈ allModsList ms)

mutual

theorem Resolve_spec (r : List Module) : ResolveSpec r (Resolve r) := by
  rw [Resolve]
  have h := resolveSorted_spec [] (sortByName r) trivial (by simp [names])
  have hperm : (sortByName r).Perm r := List.mergeSort_perm r modLe
  refine ⟨h.1, h.2.1, ?_, ?_⟩
  · intro n
    rw [h.2.2.1 n]
    simp only [names, List.map_nil, List.not_mem_nil, false_or]
    constructor
    · intro hn
      rcases List.mem_map.mp hn with ⟨x, hx, rfl⟩
      rcases mem_allModsList_iff.mp hx with ⟨m, hm, hxm⟩
      exact List.mem_map.mpr ⟨x, mem_allModsList_iff.mpr ⟨m, hperm.mem_iff.mp hm, hxm⟩, rfl⟩
    · intro hn
      rcases List.mem_map.mp hn with ⟨x, hx, rfl⟩
      rcases mem_allModsList_iff.mp hx with ⟨m, hm, hxm⟩
      exact List.mem_map.mpr ⟨x, mem_allModsList_iff.mpr ⟨m, hperm.mem_iff.mpr hm, hxm⟩, rfl⟩
  · intro x hx
    rcases h.2.2.2 x hx with h' | h'
    · simp at h'
    · rcases mem_allModsList_iff.mp h' with ⟨m, hm, hxm⟩
      exact mem_allModsList_iff.mpr ⟨m, hperm.mem_iff.mp hm, hxm⟩
termination_by 2 * modListSize r + 1
decreasing_by
  have h := modListSize_perm (List.mergeSort_perm r modLe)
  simp only [sortByName]
  omega

theorem resolveSorted_spec (ret : List Module) (l : List Module)
    (h1 : depClosedFrom [] ret) (h2 : (names ret).Nodup) :
    depClosedFrom [] (resolveSorted ret l) ∧
    (names (resolveSorted ret l)).Nodup ∧
    (∀ n, n ∈ names (resolveSorted ret l) ↔ n ∈ names ret ∨ n ∈ reachNames l) ∧
    (∀ x ∈ resolveSorted ret l, x ∈ ret ∨ x ∈ allModsList l) := by
  match l with
  | [] =>
    rw [resolveSorted]
    exact ⟨h1, h2, fun n => by simp [reachNames_nil], fun x hx => Or.inl hx⟩
  | m :: rest =>
    rw [resolveSorted]
    have hreq := Resolve_spec m.requires
    set mreqs := Resolve m.requires with hmreqs
    set ret₁ := mreqs.foldl addIfAbsent ret with hret₁
    have hd₁ : depClosedFrom [] ret₁ :=
      dep_foldl_addIfAbsent mreqs [] ret h1 hreq.1 (by simp)
    have hn₁ : (names ret₁).Nodup := nodup_foldl_addIfAbsent mreqs ret h2
    have hmem₁ : ∀ n, n ∈ names ret₁ ↔ n ∈ names ret ∨ n ∈ reachNames m.requires := by
      intro n
      rw [hret₁, names_foldl_addIfAbsent, hreq.2.2.1 n]
    set ret₂ := addIfAbsent ret₁ m with hret₂
    have hd₂ : depClosedFrom [] ret₂ := by
      refine dep_addIfAbsent hd₁ ?_
      intro n hn
      exact (hmem₁ n).mpr (Or.inr hn)
    have hn₂ : (names ret₂).Nodup := nodup_addIfAbsent hn₁
    have hmem₂ : ∀ n, n ∈ names ret₂ ↔ n ∈ names ret ∨ n ∈ reachNames m.requires ∨ n = m.name := by
      intro n
      rw [hret₂, names_addIfAbsent, hmem₁ n]
      tauto
    have hrec := resolveSorted_spec ret₂ rest hd₂ hn₂
    refine ⟨hrec.1, hrec.2.1, ?_, ?_⟩
    · intro n
      rw [hrec.2.2.1 n, reachNames_cons]
      simp only [hmem₂ n, List.mem_append, List.mem_singleton]
      tauto
    · intro x hx
      rcases hrec.2.2.2 x hx with h' | h'
      · rcases mem_addIfAbsent h' with h'' | h''
        · rcases mem_foldl_addIfAbsent mreqs ret x h'' with h3 | h3
          · exact Or.inl h3
          · have : x ∈ allModsList m.requires := hreq.2.2.2 x h3
            refine Or.inr ?_
            simp only [allModsList, List.mem_append]
            exact Or.inl (allMods_eq m ▸ List.mem_append.mpr (Or.inl this))
        · refine Or.inr ?_
          simp only [allModsList, List.mem_append]
          exact Or.inl (h'' ▸ self_mem_allMods m)
      · refine Or.inr ?_
        simp only [allModsList, List.mem_append]
        exact Or.inr h'
termination_by 2 * modListSize l
decreasing_by
  · have h := modSize_eq m
    simp only [modListSize]
    omega
  · have h := modSize_pos m
    simp only [modListSize]
    omega

end

theorem modLe_trans : ∀ (a b c : Module), modLe a b → modLe b c → modLe a c := by
  intro a b c hab hbc
  simp only [modLe, decide_eq_true_eq] at *
  exact le_trans hab hbc

theorem modLe_total : ∀ (a b : Module), modLe a b || modLe b a := by
  intro a b
  simp only [modLe, Bool.or_eq_true, decide_eq_true_eq]
  exact le_total _ _

theorem perm_pairwise_asymm_eq {r : Module → Module → Prop}
    (hasymm : ∀ a b, r a b → r b a → False) :
    ∀ (l₁ l₂ : List Module), l₁.Perm l₂ → l₁.Pairwise r → l₂.Pairwise r → l₁ = l₂ := by
  intro l₁
  induction l₁ with
  | nil => intro l₂ hp _ _; exact hp.nil_eq
  | cons a t ih =>
    intro l₂ hp hp₁ hp₂
    cases l₂ with
    | nil => exact absurd hp.symm.nil_eq (by simp)
    | cons b t₂ =>
      by_cases hab : a = b
      · subst hab
        rw [ih t₂ hp.cons_inv (List.Pairwise.sublist (List.sublist_cons_self a t) hp₁)
          (List.Pairwise.sublist (List.sublist_cons_self a t₂) hp₂)]
      · exfalso
        have ha : a ∈ t₂ := by
          have := hp.mem_iff.mp (List.mem_cons_self a t)
          rcases List.mem_cons.mp this with h | h
          · exact absurd h hab
          · exact h
        have hb : b ∈ t := by
          have := hp.mem_iff.mpr (List.mem_cons_self b t₂)
          rcases List.mem_cons.mp this with h | h
          · exact absurd h.symm hab
          · exact h
        exact hasymm a b (List.rel_of_pairwise_cons hp₁ hb)
          (List.rel_of_pairwise_cons hp₂ ha)

/-- On inputs whose members carry pairwise-distinct names, any two
permutations of the same collection sort to the same sequence. -/
theorem sortByName_perm_eq {ms ms' : List Module}
    (hperm : ms.Perm ms') (hnd : (names ms).Nodup) :
    sortByName ms = sortByName ms' := by
  have hs : (sortByName ms).Perm (sortByName ms') :=
    (List.mergeSort_perm ms modLe).trans (hperm.trans (List.mergeSort_perm ms' modLe).symm)
  have hnd₁ : (names (sortByName ms)).Nodup := by
    have : (names (sortByName ms)).Perm (names ms) :=
      (List.mergeSort_perm ms modLe).map Module.name
    exact this.nodup_iff.mpr hnd
  have hnd₂ : (names (sortByName ms')).Nodup := by
    have : (names (sortByName ms')).Perm (names ms) :=
      ((List.mergeSort_perm ms' modLe).map Module.name).trans (hperm.map Module.name).symm
    exact this.nodup_iff.mpr hnd
  have hsort : ∀ (l : List Module), (names l).Nodup →
      (l.mergeSort modLe).Perm l →
      ((names (l.mergeSort modLe)).Nodup → (l.mergeSort modLe).Pairwise
        (fun a b => a.name < b.name)) := by
    intro l _ _ hnodup
    have h1 : (l.mergeSort modLe).Pairwise (fun a b => modLe a b) :=
      List.sorted_mergeSort (fun a b c => modLe_trans a b c)
        (fun a b => modLe_total a b) l
    have h2 : (l.mergeSort modLe).Pairwise (fun a b => a.name ≠ b.name) := by
      rw [names] at hnodup
      exact List.pairwise_map.mp hnodup
    refine (h1.and h2).imp ?_
    intro a b hab
    simp only [modLe, decide_eq_true_eq] at hab
    exact lt_of_le_of_ne hab.1 hab.2
  refine perm_pairwise_asymm_eq (fun a b h1 h2 => absurd h2 (not_lt_of_lt h1)) _ _ hs
    (hsort ms hnd (List.mergeSort_perm ms modLe) hnd₁)
    (hsort ms' (((hperm.map Module.name)).nodup_iff.mp hnd)
      (List.mergeSort_perm ms' modLe) hnd₂)

/-- C1: for a collection of modules with pairwise-distinct names (the
requires-graph being acyclic by the inductive representation), `Resolve`
is invariant under permutation of its input, its output names are
pairwise-distinct (each appearing exactly once), the output names are
exactly the names reachable through `Requires()`, and every direct or
transitive dependency of an output member appears at a strictly earlier
index. -/
theorem Resolve_correct (ms ms' : List Module)
    (hperm : ms.Perm ms') (hnd : (names ms).Nodup) :
    Resolve ms = Resolve ms' ∧
    (names (Resolve ms)).Nodup ∧
    (∀ n, n ∈ names (Resolve ms) ↔ n ∈ reachNames ms) ∧
    (∀ j (hj : j < (Resolve ms).length),
      ∀ n ∈ reachNames ((Resolve ms).get ⟨j, hj⟩).requires,
        n ∈ names ((Resolve ms).take j)) := by
  have hspec := Resolve_spec ms
  refine ⟨?_, hspec.2.1, hspec.2.2.1, ?_⟩
  · rw [Resolve, Resolve, sortByName_perm_eq hperm hnd]
  · intro j hj n hn
    rcases depClosedFrom_index (Resolve ms) [] hspec.1 j hj n hn with h | h
    · simp at h
    · exact h

/-- Module `a` of the repository's resolver tests: no requirements. -/
def modA : Module := .mk "a".toList []

/-- Module `b`, requiring `a`. -/
def modB : Module := .mk "b".toList [modA]

/-- Module `c`, requiring `a`. -/
def modC : Module := .mk "c".toList [modA]

/-- Module `d`, requiring `b` and `c` (the diamond test). -/
def modD : Module := .mk "d".toList [modB, modC]

/-- Witness for `Resolve_correct` at the repository's own test input
`{c, b}` (both requiring `a`), permuted. -/
theorem Resolve_correct_witness :
    ([modC, modB] : List Module).Perm [modB, modC] ∧
    (names [modC, modB]).Nodup ∧
    (Resolve [modC, modB] = Resolve [modB, modC] ∧
     (names (Resolve [modC, modB])).Nodup ∧
     (∀ n, n ∈ names (Resolve [modC, modB]) ↔ n ∈ reachNames [modC, modB]) ∧
     (∀ j (hj : j < (Resolve [modC, modB]).length),
       ∀ n ∈ reachNames ((Resolve [modC, modB]).get ⟨j, hj⟩).requires,
         n ∈ names ((Resolve [modC, modB]).take j))) :=
  ⟨by decide, by decide,
    Resolve_correct [modC, modB] [modB, modC] (by decide) (by decide)⟩

/-- Module named `c` requiring the module named `a`, used to refute
idempotence of `Resolve`. -/
def cxX : Module := .mk "c".toList [.mk "a".toList []]

/-- Module named `b` with no requirements. -/
def cxZ : Module := .mk "b".toList []

unseal List.merge List.mergeSort Resolve resolveSorted in
/-- C7 counterexample: `Resolve` is not idempotent.  For the input
`[c→a, b]`, `Resolve` emits names `[b, a, c]` (the name-sorted input puts
`b` first, then `c` pulls in `a`), but re-resolving that output name-sorts
it first and emits `[a, b, c]`. -/
theorem Resolve_not_idempotent :
    ¬ (Resolve (Resolve [cxX, cxZ]) = Resolve [cxX, cxZ]) := by decide

/-- C7 (amended): applying `Resolve` to an already-resolved sequence
returns a sequence with exactly the same module names — a permutation,
possibly reordered — still deduplicated and still dependency-ordered;
it need not be the identical sequence. -/
theorem Resolve_resolve_perm (ms : List Module) :
    (names (Resolve (Resolve ms))).Perm (names (Resolve ms)) ∧
    (names (Resolve (Resolve ms))).Nodup ∧
    depClosedFrom [] (Resolve (Resolve ms)) := by
  have h1 := Resolve_spec ms
  have h2 := Resolve_spec (Resolve ms)
  refine ⟨?_, h2.2.1, h2.1⟩
  rw [List.perm_ext_iff_of_nodup h2.2.1 h1.2.1]
  intro n
  rw [h2.2.2.1 n]
  constructor
  · intro hn
    rcases List.mem_map.mp hn with ⟨x, hx, rfl⟩
    rcases mem_allModsList_iff.mp hx with ⟨m, hm, hxm⟩
    have hm' : m ∈ allModsList ms := h1.2.2.2 m hm
    have hx' : x ∈ allModsList ms := mem_allModsList_trans ms m x hm' hxm
    exact (h1.2.2.1 x.name).mpr (List.mem_map.mpr ⟨x, hx', rfl⟩)
  · exact fun hn => names_subset_reachNames hn

/-! ### Virtual file tree (`src/unnamed/part_000`, the `FileSet` variant
with gzip support; `src/fs.go` is the same code without the gzip fields) -/

/-- File contents: a Go byte slice. -/
abbrev Bytes := List Nat

/-- A node of the virtual file tree (`fileEntry`,
`src/unnamed/part_000:220-228`).  `buf = none` models Go's nil
`*bytes.Buffer` pointer — only the tree root created by `NewFileSet` has
it; `bytes.NewBuffer(b)` is modelled as `some b` (with `some []` for a
nil slice `b`).  Go's `os.FileMode` is split into its permission bits
(`perm`) and its `os.ModeDir` bit (`isDir`, what `Mode().IsDir()`
reports); `modTime` is an opaque timestamp; the always-nil `sys` field is
omitted. -/
inductive FileEntry where
  | mk (buf : Option Bytes) (gzipped : Bool) (name : GoStr) (perm : Nat)
       (isDir : Bool) (modTime : Nat) (children : List FileEntry)

/-- The stored (possibly compressed) contents buffer. -/
def FileEntry.buf : FileEntry → Option Bytes
  | .mk b _ _ _ _ _ _ => b

/-- The gzip flag. -/
def FileEntry.gzipped : FileEntry → Bool
  | .mk _ g _ _ _ _ _ => g

/-- `Name()` (`src/unnamed/part_000:261`). -/
def FileEntry.name : FileEntry → GoStr
  | .mk _ _ n _ _ _ _ => n

/-- The permission bits of the mode. -/
def FileEntry.perm : FileEntry → Nat
  | .mk _ _ _ p _ _ _ => p

/-- `IsDir()` (`src/unnamed/part_000:265`): the `os.ModeDir` bit. -/
def FileEntry.isDir : FileEntry → Bool
  | .mk _ _ _ _ d _ _ => d

/-- `ModTime()` (`src/unnamed/part_000:264`). -/
def FileEntry.modTime : FileEntry → Nat
  | .mk _ _ _ _ _ t _ => t

/-- The ordered child list (creation order). -/
def FileEntry.children : FileEntry → List FileEntry
  | .mk _ _ _ _ _ _ cs => cs

/-- Replace the child list (models in-place mutation of
`dire.children`). -/
def FileEntry.withChildren : FileEntry → List FileEntry → FileEntry
  | .mk b g n p d t _, cs => .mk b g n p d t cs

/-- Set the gzip flag (models `e.gzipped = gzipped`,
`src/unnamed/part_000:186`). -/
def FileEntry.withGzipped : FileEntry → Bool → FileEntry
  | .mk b _ n p d t cs, g => .mk b g n p d t cs

/-- `Size()` (`src/unnamed/part_000:262`, `src/fs.go:210`):
`int64(fe.buf.Len())`, the length of the *stored* buffer.  `none` models
the nil-pointer panic when `buf` is nil. -/
def FileEntry.Size (fe : FileEntry) : Option Int :=
  fe.buf.map (fun b => (b.length : Int))

mutual

/-- Boolean equality on file entries (componentwise). -/
def FileEntry.beq : FileEntry → FileEntry → Bool
  | .mk b g n p d t cs, .mk b' g' n' p' d' t' cs' =>
      b = b' && g = g' && n = n' && p = p' && d = d' && t = t' &&
        FileEntry.beqList cs cs'

/-- Boolean equality on file entry lists. -/
def FileEntry.beqList : List FileEntry → List FileEntry → Bool
  | [], [] => true
  | a :: as, b :: bs => FileEntry.beq a b && FileEntry.beqList as bs
  | _, _ => false

end

mutual

theorem feBeq_iff : ∀ (a b : FileEntry), FileEntry.beq a b = true ↔ a = b
  | .mk b g n p d t cs, .mk b' g' n' p' d' t' cs' => by
    simp only [FileEntry.beq, Bool.and_eq_true, decide_eq_true_eq,
      FileEntry.mk.injEq]
    rw [and_congr Iff.rfl (feBeqList_iff cs cs')]
    tauto

theorem feBeqList_iff :
    ∀ (as bs : List FileEntry), FileEntry.beqList as bs = true ↔ as = bs
  | [], [] => by simp [FileEntry.beqList]
  | [], _ :: _ => by simp [FileEntry.beqList]
  | _ :: _, [] => by simp [FileEntry.beqList]
  | a :: as, b :: bs => by
    simp only [FileEntry.beqList, Bool.and_eq_true, List.cons.injEq]
    exact and_congr (feBeq_iff a b) (feBeqList_iff as bs)

end

instance : DecidableEq FileEntry := fun a b => decidable_of_iff _ (feBeq_iff a b)

/-- `fileEntryList.entryWithName` (`src/unnamed/part_000:274-281`):
first child with the given name. -/
def entryWithName : List FileEntry → GoStr → Option FileEntry
  | [], _ => none
  | e :: rest, n => if e.name = n then some e else entryWithName rest n

/-- The component walk of `findEntry` (`src/unnamed/part_000:92-103`). -/
def findEntryFrom (e : FileEntry) : List GoStr → Option FileEntry
  | [] => some e
  | p :: rest =>
      match entryWithName e.children p with
      | none => none
      | some e2 => findEntryFrom e2 rest

/-- `FileSet` (`src/unnamed/part_000:55-59`).  The `requires` field plays
no role in the file-tree or walker operations and is omitted (the
resolver is modelled separately on `Module`). -/
structure FileSet where
  root : FileEntry
  name : GoStr

/-- `findEntry` (`src/unnamed/part_000:92-103`); the source's
`fullPathSplit(path.Clean("/" + fullPath))` equals
`fullPathSplit fullPath` because `fullPathSplit` itself prepends the
separator and cleans, and cleaning is idempotent. -/
def FileSet.findEntry (fs : FileSet) (fullPath : GoStr) : Option FileEntry :=
  findEntryFrom fs.root (fullPathSplit fullPath)

/-- `NewFileSet` (`src/unnamed/part_000:40-52`): root entry named `/`,
nil buffer, mode `0755 | os.ModeDir`. -/
def NewFileSet (name : GoStr) : FileSet :=
  { name := name
    root := .mk none false ['/'] 0o755 true 0 [] }

/-- `newFileEntry` (`src/unnamed/part_000:203-218`): `none` models the
sanity-check panic for a name containing a separator (`path.Split(name)`
returns a nonempty directory part exactly when `name` contains `/`). -/
def newFileEntry (name : GoStr) (b : Bytes) (perm : Nat) (isDir : Bool)
    (modTime : Nat) : Option FileEntry :=
  if '/' ∈ name then none
  else some (.mk (some b) false name perm isDir modTime [])

/-- Replace the first child with the given name (the list cell that the
in-place mutation of the source updates through its pointer). -/
def replaceNamed : List FileEntry → GoStr → FileEntry → List FileEntry
  | [], _, _ => []
  | e :: rest, n, e' => if e.name = n then e' :: rest else e :: replaceNamed rest n e'

/-- Functional update at a path: find the entry at `parts` below `e`
(exactly as `findEntryFrom` does) and replace it by the result of `f`.
This models the source's pattern of looking an entry up with `findEntry`
and then mutating it in place; `none` propagates both a missing path and
a failure of `f`. -/
def modifyEntry : List GoStr → FileEntry → (FileEntry → Option FileEntry) →
    Option FileEntry
  | [], e, f => f e
  | p :: rest, e, f =>
      match entryWithName e.children p with
      | none => none
      | some e2 =>
          match modifyEntry rest e2 f with
          | none => none
          | some e2' => some (e.withChildren (replaceNamed e.children p e2'))

/-- The directory part and base of a cleaned path, as
`dir, base := path.Split(fullPath)` computes them after
`fullPath = path.Clean("/" + fullPath)` (`src/unnamed/part_000:126-128`):
the base is the last cleaned component (empty for the root path), and
`findEntry(dir)` resolves the remaining leading components. -/
def splitDirBase (fullPath : GoStr) : List GoStr × GoStr :=
  let parts := fullPathSplit fullPath
  (parts.dropLast, (parts.getLast?).getD [])

/-- `Mkdir` (`src/unnamed/part_000:121-148`): create exactly one
directory; `none` models each of its panics (parent missing, parent not a
directory, entry already present, bad name). -/
def FileSet.Mkdir (fs : FileSet) (fullPath : GoStr) (perm : Nat) :
    Option FileSet :=
  match modifyEntry (splitDirBase fullPath).1 fs.root (fun dire =>
    if ¬ dire.isDir then none
    else if (entryWithName dire.children (splitDirBase fullPath).2).isSome then none
    else match newFileEntry (splitDirBase fullPath).2 [] perm true 0 with
      | none => none
      | some e => some (dire.withChildren (dire.children ++ [e]))) with
  | none => none
  | some root' => some { fs with root := root' }

/-- `writeFile` (`src/unnamed/part_000:165-191`): like `Mkdir` but
creating a file entry carrying `contents` and the gzip flag. -/
def FileSet.writeFile (fs : FileSet) (fullPath : GoStr) (perm : Nat)
    (modTime : Nat) (contents : Bytes) (gzipped : Bool) : Option FileSet :=
  match modifyEntry (splitDirBase fullPath).1 fs.root (fun dire =>
    if ¬ dire.isDir then none
    else if (entryWithName dire.children (splitDirBase fullPath).2).isSome then none
    else match newFileEntry (splitDirBase fullPath).2 contents perm false modTime with
      | none => none
      | some e => some (dire.withChildren (dire.children ++ [e.withGzipped gzipped]))) with
  | none => none
  | some root' => some { fs with root := root' }

/-- `WriteFile` (`src/unnamed/part_000:155-157`). -/
def FileSet.WriteFile (fs : FileSet) (fullPath : GoStr) (perm : Nat)
    (modTime : Nat) (contents : Bytes) : Option FileSet :=
  fs.writeFile fullPath perm modTime contents false

/-- `WriteGzipFile` (`src/unnamed/part_000:159-163`). -/
def FileSet.WriteGzipFile (fs : FileSet) (fullPath : GoStr) (perm : Nat)
    (modTime : Nat) (contents : Bytes) : Option FileSet :=
  fs.writeFile fullPath perm modTime contents true

/-- The body of `MkdirAll`'s loop (`src/unnamed/part_000:107-119`): walk
the components, descending into an existing child when present
(no directory check!) and creating a fresh directory entry otherwise.
`none` can arise only from `newFileEntry`'s name check, which never fires
on `fullPathSplit` output (see `MkdirAll_total`). -/
def mkdirAllEntry (perm : Nat) : List GoStr → FileEntry → Option FileEntry
  | [], e => some e
  | p :: rest, e =>
      match entryWithName e.children p with
      | some sube =>
          match mkdirAllEntry perm rest sube with
          | none => none
          | some sube' => some (e.withChildren (replaceNamed e.children p sube'))
      | none =>
          match newFileEntry p [] perm true 0 with
          | none => none
          | some sube =>
              match mkdirAllEntry perm rest sube with
              | none => none
              | some sube' => some (e.withChildren (e.children ++ [sube']))

/-- `MkdirAll` (`src/unnamed/part_000:105-119`). -/
def FileSet.MkdirAll (fs : FileSet) (fullPath : GoStr) (perm : Nat) :
    Option FileSet :=
  match mkdirAllEntry perm (fullPathSplit fullPath) fs.root with
  | none => none
  | some root' => some { fs with root := root' }

/-- Errors of the file-tree and walker operations:
`os.ErrNotExist` from `Open`, a gzip decode failure from `open`, and
`io.EOF` from `Readdir`. -/
inductive FsErr where
  | notExist
  | gzipErr
  | eof
deriving DecidableEq, Repr

/-- An open handle (`file`, `src/unnamed/part_000:284-288`): the entry
(for `Stat`), the fully decoded reader contents, and the handle-private
children cursor initialized from the entry. -/
structure file where
  fileEntry : FileEntry
  data : Bytes
  children : List FileEntry

/-- `Stat()` (`src/unnamed/part_000:268-270`): returns the entry itself. -/
def file.Stat (f : file) : FileEntry := f.fileEntry

/-- `fileEntry.open` (`src/unnamed/part_000:230-257`).  The gzip codec is
external to the package (spec §1 treats it as an opaque byte transform),
so it is a parameter: `gunzip b = some u` means `b` is a valid gzip
payload decompressing to `u`, and `none` covers both a `gzip.NewReader`
and an `ioutil.ReadAll` failure. -/
def FileEntry.open (gunzip : Bytes → Option Bytes) (fe : FileEntry) :
    Except FsErr file :=
  match fe.buf with
  | none => .ok ⟨fe, [], fe.children⟩
  | some b =>
      if fe.gzipped then
        match gunzip b with
        | none => .error .gzipErr
        | some u => .ok ⟨fe, u, fe.children⟩
      else .ok ⟨fe, b, fe.children⟩

/-- `FileSet.Open` (`src/unnamed/part_000:193-201`). -/
def FileSet.Open (gunzip : Bytes → Option Bytes) (fs : FileSet)
    (fullPath : GoStr) : Except FsErr file :=
  match fs.findEntry fullPath with
  | none => .error .notExist
  | some e => e.open gunzip

/-- `file.Readdir` (`src/unnamed/part_000:295-320`, identical to
`src/fs.go:243-268`): consume up to `count` entries from the
handle-private cursor (`count ≤ 0` means all); an empty result is the
`io.EOF` signal. -/
def file.Readdir (f : file) (count : Int) : Except FsErr (List FileEntry) × file :=
  let c1 : Int := if count ≤ 0 then (f.children.length : Int) else count
  let c2 : Int := if c1 > (f.children.length : Int) then (f.children.length : Int) else c1
  let ch := f.children.take c2.toNat
  let f' : file := { f with children := f.children.drop c2.toNat }
  if ch.length = 0 then (.error .eof, f') else (.ok ch, f')

/-- A sequence of `Readdir` calls on one handle, concatenating the
successfully returned entries. -/
def runReaddir (f : file) : List Int → List FileEntry
  | [] => []
  | k :: ks =>
      match f.Readdir k with
      | (.ok l, f') => l ++ runReaddir f' ks
      | (.error _, f') => runReaddir f' ks

theorem Readdir_entry (f : file) (k : Int) :
    (f.Readdir k).2.fileEntry = f.fileEntry := by
  obtain ⟨fe, d, cs⟩ := f
  unfold file.Readdir
  simp only []
  split_ifs <;> rfl

theorem Readdir_pos (f : file) (k : Int) (hk : 0 < k) (hne : f.children ≠ []) :
    f.Readdir k = (.ok (f.children.take k.toNat),
      { f with children := f.children.drop k.toNat }) := by
  obtain ⟨fe, d, cs⟩ := f
  simp only [file.Readdir] at *
  rw [if_neg (show ¬ k ≤ 0 by omega)]
  by_cases hlen : k > (cs.length : Int)
  · rw [if_pos hlen]
    simp only [Int.toNat_natCast, List.take_length, List.drop_length]
    rw [if_neg (by simpa using hne)]
    rw [List.take_of_length_le (by omega), List.drop_eq_nil_of_le (by omega)]
  · rw [if_neg hlen]
    rw [if_neg ?_]
    intro hc
    rw [List.length_take] at hc
    have h1 : cs.length ≠ 0 := fun h => (by simpa using hne : cs ≠ []) (List.length_eq_zero.mp h)
    omega

theorem Readdir_all_remaining (f : file) (k : Int) (hne : f.children ≠ [])
    (hk : (f.children.length : Int) ≤ k) :
    f.Readdir k = (.ok f.children, { f with children := [] }) := by
  have hk0 : 0 < k := by
    have : f.children.length ≠ 0 := fun h => hne (List.length_eq_zero.mp h)
    omega
  rw [Readdir_pos f k hk0 hne]
  rw [List.take_of_length_le (by omega), List.drop_eq_nil_of_le (by omega)]

theorem Readdir_nonpos (f : file) (k : Int) (hk : k ≤ 0) (hne : f.children ≠ []) :
    f.Readdir k = (.ok f.children, { f with children := [] }) := by
  obtain ⟨fe, d, cs⟩ := f
  simp only [file.Readdir] at *
  rw [if_pos hk]
  rw [if_neg (show ¬ ((cs.length : Int) > (cs.length : Int)) by omega)]
  simp only [Int.toNat_natCast, List.take_length, List.drop_length]
  rw [if_neg (by simpa using hne)]

theorem Readdir_exhausted (f : file) (k : Int) (h : f.children = []) :
    f.Readdir k = (.error .eof, f) := by
  obtain ⟨fe, d, cs⟩ := f
  simp only [file.Readdir] at *
  subst h
  simp

theorem runReaddir_empty (ks : List Int) :
    ∀ (f : file), f.children = [] → runReaddir f ks = [] := by
  induction ks with
  | nil => intro f _; rfl
  | cons k ks ih =>
    intro f h
    rw [runReaddir, Readdir_exhausted f k h]
    exact ih f h

theorem runReaddir_all (ks : List Int) :
    ∀ (f : file), (∀ k ∈ ks, 0 < k) →
      (f.children.length : Int) ≤ ks.sum →
      runReaddir f ks = f.children := by
  induction ks with
  | nil =>
    intro f _ hsum
    have h : f.children = [] := by
      refine List.length_eq_zero.mp ?_
      simp only [List.sum_nil] at hsum
      omega
    rw [runReaddir, h]
  | cons k ks ih =>
    intro f hpos hsum
    by_cases hnil : f.children = []
    · rw [runReaddir_empty (k :: ks) f hnil, hnil]
    · have hk : 0 < k := hpos k (List.mem_cons_self _ _)
      have hsum' : 0 ≤ ks.sum :=
        List.sum_nonneg (fun x hx => le_of_lt (hpos x (List.mem_cons.mpr (Or.inr hx))))
      rw [runReaddir, Readdir_pos f k hk hnil]
      simp only []
      rw [ih _ (fun j hj => hpos j (List.mem_cons.mpr (Or.inr hj))) ?_]
      · exact List.take_append_drop _ _
      · simp only [List.length_drop]
        rw [List.sum_cons] at hsum
        omega

theorem open_ok {gz : Bytes → Option Bytes} {e : FileEntry} {f : file}
    (h : e.open gz = .ok f) : f.fileEntry = e ∧ f.children = e.children := by
  unfold FileEntry.open at h
  split at h
  · simp only [Except.ok.injEq] at h
    rw [← h]
    exact ⟨rfl, rfl⟩
  · split at h
    · split at h
      · exact absurd h (by simp)
      · simp only [Except.ok.injEq] at h
        rw [← h]
        exact ⟨rfl, rfl⟩
    · simp only [Except.ok.injEq] at h
      rw [← h]
      exact ⟨rfl, rfl⟩

/-- C3: the incremental-listing contract of `Readdir`.  For a handle `f`
opened on a directory entry `e`: the handle's private cursor starts as the
full child list in creation order and the underlying entry is untouched
(each independent `Open` of the same directory therefore sees the full
listing, and no `Readdir` call mutates the entry); a positive request
returns the next consecutive run of not-yet-returned children (never
repeating or skipping); requesting at least the remaining number returns
exactly the remainder without error; a non-positive request on a fresh
handle returns all children at once; any request on an exhausted cursor
returns the `io.EOF` end-of-sequence signal rather than an empty success;
and a sequence of positive requests whose total covers the directory
returns every child exactly once, in creation order. -/
theorem Readdir_contract (gz : Bytes → Option Bytes) (e : FileEntry) (f g : file)
    (k : Int) (ks : List Int) (hopen : e.open gz = .ok f) :
    (f.children = e.children ∧ f.fileEntry = e) ∧
    ((g.Readdir k).2.fileEntry = g.fileEntry) ∧
    (0 < k → g.children ≠ [] →
      g.Readdir k = (.ok (g.children.take k.toNat),
        { g with children := g.children.drop k.toNat })) ∧
    (g.children ≠ [] → (g.children.length : Int) ≤ k →
      g.Readdir k = (.ok g.children, { g with children := [] })) ∧
    (k ≤ 0 → f.children ≠ [] →
      f.Readdir k = (.ok f.children, { f with children := [] })) ∧
    (g.children = [] → g.Readdir k = (.error .eof, g)) ∧
    ((∀ j ∈ ks, 0 < j) → (g.children.length : Int) ≤ ks.sum →
      runReaddir g ks = g.children) :=
  ⟨⟨(open_ok hopen).2, (open_ok hopen).1⟩,
    Readdir_entry g k,
    fun hk hne => Readdir_pos g k hk hne,
    fun hne hk => Readdir_all_remaining g k hne hk,
    fun hk hne => Readdir_nonpos f k hk hne,
    fun h => Readdir_exhausted g k h,
    fun hpos hsum => runReaddir_all ks g hpos hsum⟩

theorem withChildren_name (e : FileEntry) (cs : List FileEntry) :
    (e.withChildren cs).name = e.name := by cases e; rfl

theorem withChildren_buf (e : FileEntry) (cs : List FileEntry) :
    (e.withChildren cs).buf = e.buf := by cases e; rfl

theorem withChildren_isDir (e : FileEntry) (cs : List FileEntry) :
    (e.withChildren cs).isDir = e.isDir := by cases e; rfl

theorem withChildren_children (e : FileEntry) (cs : List FileEntry) :
    (e.withChildren cs).children = cs := by cases e; rfl

theorem withGzipped_name (e : FileEntry) (g : Bool) :
    (e.withGzipped g).name = e.name := by cases e; rfl

theorem entryWithName_name :
    ∀ {cs : List FileEntry} {n : GoStr} {t : FileEntry},
      entryWithName cs n = some t → t.name = n := by
  intro cs
  induction cs with
  | nil => intro n t h; exact absurd h (by simp [entryWithName])
  | cons e rest ih =>
    intro n t h
    unfold entryWithName at h
    split at h
    · rename_i he
      cases h
      exact he
    · exact ih h

theorem entryWithName_mem :
    ∀ {cs : List FileEntry} {n : GoStr} {t : FileEntry},
      entryWithName cs n = some t → t ∈ cs := by
  intro cs
  induction cs with
  | nil => intro n t h; exact absurd h (by simp [entryWithName])
  | cons e rest ih =>
    intro n t h
    unfold entryWithName at h
    split at h
    · cases h
      exact List.mem_cons_self _ _
    · exact List.mem_cons.mpr (Or.inr (ih h))

theorem entryWithName_append (cs ds : List FileEntry) (n : GoStr) :
    entryWithName (cs ++ ds) n =
      match entryWithName cs n with
      | some t => some t
      | none => entryWithName ds n := by
  induction cs with
  | nil => simp [entryWithName]
  | cons e rest ih =>
    simp only [List.cons_append, entryWithName]
    split
    · rfl
    · exact ih

theorem entryWithName_append_new {cs : List FileEntry} {ne : FileEntry}
    (h : entryWithName cs ne.name = none) :
    entryWithName (cs ++ [ne]) ne.name = some ne := by
  rw [entryWithName_append, h]
  simp [entryWithName]

theorem entryWithName_replaceNamed_self :
    ∀ {cs : List FileEntry} {p : GoStr} {t t' : FileEntry},
      entryWithName cs p = some t → t'.name = t.name →
      entryWithName (replaceNamed cs p t') p = some t' := by
  intro cs
  induction cs with
  | nil => intro p t t' h _; exact absurd h (by simp [entryWithName])
  | cons e rest ih =>
    intro p t t' h hn
    unfold entryWithName at h
    unfold replaceNamed
    split at h
    · rename_i he
      cases h
      rw [if_pos he]
      unfold entryWithName
      rw [if_pos (by rw [hn, he])]
    · rename_i he
      rw [if_neg he]
      unfold entryWithName
      rw [if_neg he]
      exact ih h hn

theorem findEntryFrom_append (l₁ l₂ : List GoStr) :
    ∀ (e : FileEntry), findEntryFrom e (l₁ ++ l₂) =
      match findEntryFrom e l₁ with
      | none => none
      | some t => findEntryFrom t l₂ := by
  induction l₁ with
  | nil => intro e; simp [findEntryFrom]
  | cons p rest ih =>
    intro e
    simp only [List.cons_append, findEntryFrom]
    split
    · rfl
    · exact ih _

theorem modifyEntry_spec (parts : List GoStr) :
    ∀ (e : FileEntry) (f : FileEntry → Option FileEntry) (e' : FileEntry),
      (∀ x y, f x = some y → y.name = x.name) →
      modifyEntry parts e f = some e' →
      e'.name = e.name ∧
      ∃ t t', findEntryFrom e parts = some t ∧ f t = some t' ∧
        findEntryFrom e' parts = some t' := by
  induction parts with
  | nil =>
    intro e f e' hf h
    simp only [modifyEntry] at h
    exact ⟨hf e e' h, e, e', rfl, h, rfl⟩
  | cons p rest ih =>
    intro e f e' hf h
    simp only [modifyEntry] at h
    split at h
    · exact absurd h (by simp)
    · rename_i e2 he2
      split at h
      · exact absurd h (by simp)
      · rename_i e2' he2'
        simp only [Option.some.injEq] at h
        subst h
        obtain ⟨hname, t, t', hfind, hft, hfind'⟩ := ih e2 f e2' hf he2'
        refine ⟨withChildren_name _ _, t, t', ?_, hft, ?_⟩
        · simp only [findEntryFrom, he2]
          exact hfind
        · simp only [findEntryFrom, withChildren_children]
          rw [entryWithName_replaceNamed_self he2
            (by rw [hname, entryWithName_name he2])]
          exact hfind'

theorem modifyEntry_isSome_iff (parts : List GoStr) :
    ∀ (e : FileEntry) (f : FileEntry → Option FileEntry),
      (modifyEntry parts e f).isSome = true ↔
        ∃ t, findEntryFrom e parts = some t ∧ (f t).isSome = true := by
  induction parts with
  | nil =>
    intro e f
    simp only [modifyEntry, findEntryFrom]
    constructor
    · intro h; exact ⟨e, rfl, h⟩
    · intro ⟨t, ht, h⟩; cases ht; exact h
  | cons p rest ih =>
    intro e f
    simp only [modifyEntry, findEntryFrom]
    split
    · simp
    · rename_i e2 he2
      rw [← ih e2 f]
      rcases h : modifyEntry rest e2 f with _ | e2' <;> simp [h]

theorem splitDirBase_eq {p : GoStr} (hne : fullPathSplit p ≠ []) :
    (splitDirBase p).1 ++ [(splitDirBase p).2] = fullPathSplit p := by
  unfold splitDirBase
  rcases List.eq_nil_or_concat (fullPathSplit p) with h | ⟨l', a, h⟩
  · exact absurd h hne
  · rw [h]
    simp

theorem withChildren_self (e : FileEntry) : e.withChildren e.children = e := by
  cases e; rfl

theorem replaceNamed_self :
    ∀ {cs : List FileEntry} {p : GoStr} {t : FileEntry},
      entryWithName cs p = some t → replaceNamed cs p t = cs := by
  intro cs
  induction cs with
  | nil => intro p t _; rfl
  | cons e rest ih =>
    intro p t h
    unfold entryWithName at h
    unfold replaceNamed
    split at h
    · rename_i he
      cases h
      rw [if_pos he]
    · rename_i he
      rw [if_neg he, ih h]

theorem writeFile_found {fs fs' : FileSet} {p : GoStr} {perm mt : Nat}
    {b : Bytes} {g : Bool} (hne : fullPathSplit p ≠ [])
    (h : fs.writeFile p perm mt b g = some fs') :
    fs'.findEntry p =
      some (.mk (some b) g (splitDirBase p).2 perm false mt []) := by
  unfold FileSet.writeFile at h
  split at h
  · exact absurd h (by simp)
  · rename_i root' hmod
    simp only [Option.some.injEq] at h
    subst h
    have hf : ∀ (x y : FileEntry), (fun (dire : FileEntry) =>
        if ¬ dire.isDir then none
        else if (entryWithName dire.children (splitDirBase p).2).isSome then none
        else match newFileEntry (splitDirBase p).2 b perm false mt with
          | none => none
          | some e => some (dire.withChildren (dire.children ++ [e.withGzipped g])))
          x = some y → y.name = x.name := by
      intro x y hxy
      simp only [] at hxy
      split at hxy
      · exact absurd hxy (by simp)
      · split at hxy
        · exact absurd hxy (by simp)
        · split at hxy
          · exact absurd hxy (by simp)
          · cases hxy
            exact withChildren_name _ _
    obtain ⟨hname, t, t', hfind, hft, hfind'⟩ := modifyEntry_spec _ _ _ _ hf hmod
    split at hft
    · exact absurd hft (by simp)
    · split at hft
      · exact absurd hft (by simp)
      · rename_i hdir habsent
        split at hft
        · exact absurd hft (by simp)
        · rename_i ne hne'
          simp only [Option.some.injEq] at hft
          subst hft
          unfold newFileEntry at hne'
          split at hne'
          · exact absurd hne' (by simp)
          · rename_i hslash
            simp only [Option.some.injEq] at hne'
            subst hne'
            unfold FileSet.findEntry
            rw [← splitDirBase_eq hne, findEntryFrom_append]
            rw [hfind']
            simp only [findEntryFrom, withChildren_children]
            have hE : entryWithName (t.children ++
                [(FileEntry.mk (some b) false (splitDirBase p).2 perm false mt
                  []).withGzipped g])
                (splitDirBase p).2 =
                some (FileEntry.mk (some b) g (splitDirBase p).2 perm false mt []) :=
              entryWithName_append_new (Option.not_isSome_iff_eq_none.mp habsent)
            rw [hE]

theorem Mkdir_found {fs fs' : FileSet} {p : GoStr} {perm : Nat}
    (hne : fullPathSplit p ≠ [])
    (h : fs.Mkdir p perm = some fs') :
    fs'.findEntry p =
      some (.mk (some []) false (splitDirBase p).2 perm true 0 []) := by
  unfold FileSet.Mkdir at h
  split at h
  · exact absurd h (by simp)
  · rename_i root' hmod
    simp only [Option.some.injEq] at h
    subst h
    have hf : ∀ (x y : FileEntry), (fun (dire : FileEntry) =>
        if ¬ dire.isDir then none
        else if (entryWithName dire.children (splitDirBase p).2).isSome then none
        else match newFileEntry (splitDirBase p).2 [] perm true 0 with
          | none => none
          | some e => some (dire.withChildren (dire.children ++ [e])))
          x = some y → y.name = x.name := by
      intro x y hxy
      simp only [] at hxy
      split at hxy
      · exact absurd hxy (by simp)
      · split at hxy
        · exact absurd hxy (by simp)
        · split at hxy
          · exact absurd hxy (by simp)
          · cases hxy
            exact withChildren_name _ _
    obtain ⟨hname, t, t', hfind, hft, hfind'⟩ := modifyEntry_spec _ _ _ _ hf hmod
    split at hft
    · exact absurd hft (by simp)
    · split at hft
      · exact absurd hft (by simp)
      · rename_i hdir habsent
        split at hft
        · exact absurd hft (by simp)
        · rename_i ne hne'
          simp only [Option.some.injEq] at hft
          subst hft
          unfold newFileEntry at hne'
          split at hne'
          · exact absurd hne' (by simp)
          · rename_i hslash
            simp only [Option.some.injEq] at hne'
            subst hne'
            unfold FileSet.findEntry
            rw [← splitDirBase_eq hne, findEntryFrom_append]
            rw [hfind']
            simp only [findEntryFrom, withChildren_children]
            have hE : entryWithName (t.children ++
                [FileEntry.mk (some []) false (splitDirBase p).2 perm true 0 []])
                (splitDirBase p).2 =
                some (FileEntry.mk (some []) false (splitDirBase p).2 perm true 0 []) :=
              entryWithName_append_new (Option.not_isSome_iff_eq_none.mp habsent)
            rw [hE]

/-- C4 (amended): the write/read round trip, for every path whose cleaned
component sequence is nonempty.  Writing raw bytes and opening the same
path reads back exactly those bytes; writing a valid gzip payload
(`gunzip payload = some u`) and opening reads back the uncompressed
bytes `u`. -/
theorem write_read_roundtrip (gunzip : Bytes → Option Bytes) (fs : FileSet)
    (p : GoStr) (perm mt : Nat) (hp : fullPathSplit p ≠ []) :
    (∀ b fs', fs.WriteFile p perm mt b = some fs' →
        (fs'.Open gunzip p).map file.data = .ok b) ∧
    (∀ payload u fs', gunzip payload = some u →
        fs.WriteGzipFile p perm mt payload = some fs' →
        (fs'.Open gunzip p).map file.data = .ok u) := by
  constructor
  · intro b fs' hw
    have hfound := writeFile_found hp hw
    unfold FileSet.Open
    rw [hfound]
    rfl
  · intro payload u fs' hgz hw
    have hfound := writeFile_found hp hw
    unfold FileSet.Open
    rw [hfound]
    show (FileEntry.open gunzip _).map file.data = _
    unfold FileEntry.open
    simp only [FileEntry.buf, FileEntry.gzipped, if_pos rfl]
    rw [hgz]
    rfl

/-- Witness for `write_read_roundtrip` at the repository's own test file
(`/files/demo.js` analogue, here `/a.js` with bytes `[5, 6]`), including a
gzip file whose payload `[9, 9]` decompresses to `[1, 2, 3]` under the
chosen codec interpretation. -/
theorem write_read_roundtrip_witness :
    (fullPathSplit "/a.js".toList ≠ ([] : List GoStr)) ∧
    ((∀ b fs', (NewFileSet "m".toList).WriteFile "/a.js".toList 0o644 3 b = some fs' →
        (fs'.Open (fun c => if c = [9, 9] then some [1, 2, 3] else none)
          "/a.js".toList).map file.data = .ok b) ∧
     (∀ payload u fs',
        (if payload = [9, 9] then some [1, 2, 3] else none) = some u →
        (NewFileSet "m".toList).WriteGzipFile "/a.js".toList 0o644 3 payload = some fs' →
        (fs'.Open (fun c => if c = [9, 9] then some [1, 2, 3] else none)
          "/a.js".toList).map file.data = .ok u)) :=
  ⟨by decide,
    write_read_roundtrip (fun c => if c = [9, 9] then some [1, 2, 3] else none)
      (NewFileSet "m".toList) "/a.js".toList 0o644 3 (by decide)⟩

/-- The tree produced by `WriteFile` at the root path `/`: the file is
stored as a child named `""` of the root. -/
def cexRootFS : FileSet :=
  { name := "m".toList
    root := .mk none false ['/'] 0o755 true 0
      [.mk (some [7]) false [] 0o644 false 0 []] }

/-- C4 counterexample: at the path `/` (whose cleaned component sequence
is empty), `WriteFile` succeeds — it stores the bytes in an entry named
`""` under the root — but `Open` at the same path resolves to the root
directory, and reading it to exhaustion yields `[]`, not the stored
bytes `[7]`. -/
theorem WriteFile_root_no_roundtrip :
    (NewFileSet "m".toList).WriteFile "/".toList 0o644 0 [7] = some cexRootFS ∧
    (cexRootFS.Open (fun _ => none) "/".toList).map file.data = .ok [] ∧
    Except.ok ([] : Bytes) ≠ (.ok [7] : Except FsErr Bytes) := by
  refine ⟨by rfl, by rfl, by simp⟩

theorem mkdirAllEntry_total (perm : Nat) :
    ∀ (parts : List GoStr), (∀ c ∈ parts, '/' ∉ c) →
      ∀ e, (mkdirAllEntry perm parts e).isSome = true := by
  intro parts
  induction parts with
  | nil => intro _ e; rfl
  | cons p rest ih =>
    intro hfree e
    unfold mkdirAllEntry
    split
    · rename_i sube _
      rcases h : mkdirAllEntry perm rest sube with _ | sube'
      · have := ih (fun c hc => hfree c (List.mem_cons.mpr (Or.inr hc))) sube
        rw [h] at this
        exact absurd this (by simp)
      · simp [h]
    · unfold newFileEntry
      rw [if_neg (hfree p (List.mem_cons_self _ _))]
      simp only []
      rcases h : mkdirAllEntry perm rest
          (.mk (some []) false p perm true 0 []) with _ | sube'
      · have := ih (fun c hc => hfree c (List.mem_cons.mpr (Or.inr hc)))
          (.mk (some []) false p perm true 0 [])
        rw [h] at this
        exact absurd this (by simp)
      · simp [h]

theorem mkdirAllEntry_noop (perm : Nat) :
    ∀ (parts : List GoStr) (e t : FileEntry),
      findEntryFrom e parts = some t → mkdirAllEntry perm parts e = some e := by
  intro parts
  induction parts with
  | nil => intro e t _; rfl
  | cons p rest ih =>
    intro e t h
    simp only [findEntryFrom] at h
    split at h
    · exact absurd h (by simp)
    · rename_i e2 he2
      unfold mkdirAllEntry
      rw [he2]
      simp only []
      rw [ih e2 t h]
      simp only [Option.some.injEq]
      rw [replaceNamed_self he2, withChildren_self]

theorem mkdirAllEntry_name (perm : Nat) :
    ∀ (parts : List GoStr) (e e' : FileEntry),
      mkdirAllEntry perm parts e = some e' → e'.name = e.name := by
  intro parts
  induction parts with
  | nil =>
    intro e e' h
    simp only [mkdirAllEntry, Option.some.injEq] at h
    rw [← h]
  | cons p rest ih =>
    intro e e' h
    unfold mkdirAllEntry at h
    split at h
    · split at h
      · exact absurd h (by simp)
      · simp only [Option.some.injEq] at h
        rw [← h, withChildren_name]
    · split at h
      · exact absurd h (by simp)
      · split at h
        · exact absurd h (by simp)
        · simp only [Option.some.injEq] at h
          rw [← h, withChildren_name]

theorem mkdirAllEntry_found (perm : Nat) :
    ∀ (parts : List GoStr) (e e' : FileEntry),
      mkdirAllEntry perm parts e = some e' →
      ∃ t, findEntryFrom e' parts = some t ∧
        (findEntryFrom e parts = none → t.isDir = true) := by
  intro parts
  induction parts with
  | nil =>
    intro e e' h
    simp only [mkdirAllEntry, Option.some.injEq] at h
    subst h
    exact ⟨e, rfl, by intro hc; exact absurd hc (by simp [findEntryFrom])⟩
  | cons p rest ih =>
    intro e e' h
    unfold mkdirAllEntry at h
    split at h
    · rename_i sube hsube
      split at h
      · exact absurd h (by simp)
      · rename_i sube' hsube'
        simp only [Option.some.injEq] at h
        subst h
        obtain ⟨t, ht, hdir⟩ := ih sube sube' hsube'
        have hname : sube'.name = sube.name := mkdirAllEntry_name perm rest sube sube' hsube'
        refine ⟨t, ?_, ?_⟩
        · simp only [findEntryFrom, withChildren_children]
          rw [entryWithName_replaceNamed_self hsube
            (by rw [hname, entryWithName_name hsube])]
          exact ht
        · intro hnone
          simp only [findEntryFrom, hsube] at hnone
          exact hdir hnone
    · rename_i hsube
      split at h
      · exact absurd h (by simp)
      · rename_i ne hnew
        split at h
        · exact absurd h (by simp)
        · rename_i ne' hne'
          simp only [Option.some.injEq] at h
          subst h
          unfold newFileEntry at hnew
          split at hnew
          · exact absurd hnew (by simp)
          · simp only [Option.some.injEq] at hnew
            subst hnew
            obtain ⟨t, ht, hdir⟩ := ih _ ne' hne'
            have hname : ne'.name = p :=
              mkdirAllEntry_name perm rest _ ne' hne'
            have hfind' : findEntryFrom (e.withChildren (e.children ++ [ne'])) (p :: rest) =
                some t := by
              simp only [findEntryFrom, withChildren_children]
              rw [show entryWithName (e.children ++ [ne']) p = some ne' by
                rw [entryWithName_append, hsube]
                unfold entryWithName
                rw [if_pos hname]]
              exact ht
            refine ⟨t, hfind', fun _ => ?_⟩
            rcases hrest : rest with _ | ⟨q, qs⟩
            · subst hrest
              simp only [mkdirAllEntry, Option.some.injEq] at hne'
              simp only [findEntryFrom, Option.some.injEq] at ht
              rw [← ht, ← hne']
              rfl
            · subst hrest
              refine hdir ?_
              simp only [findEntryFrom]
              rw [show entryWithName
                (FileEntry.mk (some []) false p perm true 0 []).children q = none
                from rfl]

theorem Mkdir_existing_fails {fs : FileSet} {p : GoStr} {perm : Nat}
    (hne : fullPathSplit p ≠ [])
    (hex : (fs.findEntry p).isSome = true) : fs.Mkdir p perm = none := by
  unfold FileSet.Mkdir
  rcases hm : modifyEntry (splitDirBase p).1 fs.root _ with _ | root'
  · rfl
  · exfalso
    have hsome := (modifyEntry_isSome_iff (splitDirBase p).1 fs.root _).mp
      (by rw [hm]; rfl)
    obtain ⟨t, hfind, hft⟩ := hsome
    unfold FileSet.findEntry at hex
    rw [← splitDirBase_eq hne, findEntryFrom_append] at hex
    rw [hfind] at hex
    simp only [findEntryFrom] at hex
    rcases hx : entryWithName t.children (splitDirBase p).2 with _ | x
    · rw [hx] at hex
      exact absurd hex (by simp)
    · by_cases hdir : t.isDir = true
      · rw [if_neg (by rw [hdir]; simp), if_pos (by rw [hx]; rfl)] at hft
        exact absurd hft (by simp)
      · rw [if_pos (by simpa using hdir)] at hft
        exact absurd hft (by simp)

/-- C5 (amended): `MkdirAll` never fails — in particular it does *not*
fail when an existing path component is a non-directory entry; it
silently descends through such an entry and creates the missing children
beneath it.  On a path whose entries all already exist it is a no-op
returning the tree unchanged (hence no duplicate child entries).  After
`MkdirAll` the named path always resolves to an entry, and to a directory
whenever the full path did not already resolve.  `Mkdir` fails whenever
the target path (with a nonempty cleaned component sequence) already has
an entry, file or directory. -/
theorem MkdirAll_Mkdir_spec (fs : FileSet) (p : GoStr) (perm : Nat) :
    (fs.MkdirAll p perm).isSome = true ∧
    (∀ t, fs.findEntry p = some t → fs.MkdirAll p perm = some fs) ∧
    (∀ fs', fs.MkdirAll p perm = some fs' →
      ∃ t, fs'.findEntry p = some t ∧
        (fs.findEntry p = none → t.isDir = true)) ∧
    (fullPathSplit p ≠ [] → (fs.findEntry p).isSome = true →
      fs.Mkdir p perm = none) := by
  refine ⟨?_, ?_, ?_, fun hne hex => Mkdir_existing_fails hne hex⟩
  · unfold FileSet.MkdirAll
    rcases hm : mkdirAllEntry perm (fullPathSplit p) fs.root with _ | root'
    · have := mkdirAllEntry_total perm (fullPathSplit p)
        (fun c hc => (fullPathSplit_good p c hc).2.2.2) fs.root
      rw [hm] at this
      exact absurd this (by simp)
    · rfl
  · intro t ht
    unfold FileSet.MkdirAll
    unfold FileSet.findEntry at ht
    rw [mkdirAllEntry_noop perm (fullPathSplit p) fs.root t ht]
  · intro fs' h
    unfold FileSet.MkdirAll at h
    split at h
    · exact absurd h (by simp)
    · rename_i root' hm
      simp only [Option.some.injEq] at h
      subst h
      exact mkdirAllEntry_found perm (fullPathSplit p) fs.root root' hm

/-- Witness for `MkdirAll_Mkdir_spec` on the repository's test tree: a
fresh file set with directory `/files`. -/
theorem MkdirAll_Mkdir_spec_witness :
    ∃ fs₁, (NewFileSet "m".toList).Mkdir "/files".toList 0o755 = some fs₁ ∧
    (((fs₁.MkdirAll "/files".toList 0o755).isSome = true ∧
      (∀ t, fs₁.findEntry "/files".toList = some t →
        fs₁.MkdirAll "/files".toList 0o755 = some fs₁) ∧
      (∀ fs', fs₁.MkdirAll "/files".toList 0o755 = some fs' →
        ∃ t, fs'.findEntry "/files".toList = some t ∧
          (fs₁.findEntry "/files".toList = none → t.isDir = true)) ∧
      (fullPathSplit "/files".toList ≠ [] →
        (fs₁.findEntry "/files".toList).isSome = true →
        fs₁.Mkdir "/files".toList 0o755 = none))) :=
  ⟨_, rfl, MkdirAll_Mkdir_spec _ "/files".toList 0o755⟩

/-- C5 counterexample: `MkdirAll` does *not* fail when an existing path
component collides with a non-directory entry.  With `/f` an existing
file, `MkdirAll("/f/d")` succeeds — and even records a child `d` under
the file entry `f`. -/
theorem MkdirAll_through_file_cex :
    ∃ fs₁ fs₂, (NewFileSet "m".toList).WriteFile "/f".toList 0o644 0 [1] = some fs₁ ∧
      (fs₁.findEntry "/f".toList).map FileEntry.isDir = some false ∧
      fs₁.MkdirAll "/f/d".toList 0o755 = some fs₂ ∧
      (fs₂.findEntry "/f/d".toList).isSome = true :=
  ⟨_, _, rfl, rfl, rfl, rfl⟩

/-- Like `mkdirAllEntry_found`, additionally recording that a freshly
created final entry carries the empty non-nil buffer
(`newFileEntry(p, nil, …)` stores `bytes.NewBuffer(nil)`). -/
theorem mkdirAllEntry_created (perm : Nat) :
    ∀ (parts : List GoStr) (e e' : FileEntry),
      mkdirAllEntry perm parts e = some e' →
      ∃ t, findEntryFrom e' parts = some t ∧
        (findEntryFrom e parts = none → t.isDir = true ∧ t.buf = some []) := by
  intro parts
  induction parts with
  | nil =>
    intro e e' h
    simp only [mkdirAllEntry, Option.some.injEq] at h
    subst h
    exact ⟨e, rfl, by intro hc; exact absurd hc (by simp [findEntryFrom])⟩
  | cons p rest ih =>
    intro e e' h
    unfold mkdirAllEntry at h
    split at h
    · rename_i sube hsube
      split at h
      · exact absurd h (by simp)
      · rename_i sube' hsube'
        simp only [Option.some.injEq] at h
        subst h
        obtain ⟨t, ht, hdir⟩ := ih sube sube' hsube'
        have hname : sube'.name = sube.name := mkdirAllEntry_name perm rest sube sube' hsube'
        refine ⟨t, ?_, ?_⟩
        · simp only [findEntryFrom, withChildren_children]
          rw [entryWithName_replaceNamed_self hsube
            (by rw [hname, entryWithName_name hsube])]
          exact ht
        · intro hnone
          simp only [findEntryFrom, hsube] at hnone
          exact hdir hnone
    · rename_i hsube
      split at h
      · exact absurd h (by simp)
      · rename_i ne hnew
        split at h
        · exact absurd h (by simp)
        · rename_i ne' hne'
          simp only [Option.some.injEq] at h
          subst h
          unfold newFileEntry at hnew
          split at hnew
          · exact absurd hnew (by simp)
          · simp only [Option.some.injEq] at hnew
            subst hnew
            obtain ⟨t, ht, hdir⟩ := ih _ ne' hne'
            have hname : ne'.name = p :=
              mkdirAllEntry_name perm rest _ ne' hne'
            have hfind' : findEntryFrom (e.withChildren (e.children ++ [ne'])) (p :: rest) =
                some t := by
              simp only [findEntryFrom, withChildren_children]
              rw [show entryWithName (e.children ++ [ne']) p = some ne' by
                rw [entryWithName_append, hsube]
                unfold entryWithName
                rw [if_pos hname]]
              exact ht
            refine ⟨t, hfind', fun _ => ?_⟩
            rcases hrest : rest with _ | ⟨q, qs⟩
            · subst hrest
              simp only [mkdirAllEntry, Option.some.injEq] at hne'
              simp only [findEntryFrom, Option.some.injEq] at ht
              rw [← ht, ← hne']
              exact ⟨rfl, rfl⟩
            · subst hrest
              refine hdir ?_
              simp only [findEntryFrom]
              rw [show entryWithName
                (FileEntry.mk (some []) false p perm true 0 []).children q = none
                from rfl]

/-- C6 (amended): the size reported through `Stat` is the byte length of
the *stored* buffer, not of the decoded content: for a file written with
`WriteFile` the two coincide (the stored bytes are the content), but for
a file written with `WriteGzipFile` it is the length of the compressed
payload; directories created by `Mkdir` report size 0, and so does a
directory freshly created by `MkdirAll` at a previously missing path;
and on the root entry (nil buffer) `Size` panics rather than reporting
0. -/
theorem Size_spec (fs : FileSet) (p nm : GoStr) (perm mt : Nat)
    (hp : fullPathSplit p ≠ []) :
    (∀ b fs', fs.WriteFile p perm mt b = some fs' →
       ∀ t, fs'.findEntry p = some t → t.Size = some (b.length : Int)) ∧
    (∀ payload fs', fs.WriteGzipFile p perm mt payload = some fs' →
       ∀ t, fs'.findEntry p = some t → t.Size = some (payload.length : Int)) ∧
    (∀ fs', fs.Mkdir p perm = some fs' →
       ∀ t, fs'.findEntry p = some t → t.Size = some 0) ∧
    (∀ fs', fs.MkdirAll p perm = some fs' → fs.findEntry p = none →
       ∀ t, fs'.findEntry p = some t → t.Size = some 0) ∧
    (NewFileSet nm).root.Size = none := by
  refine ⟨?_, ?_, ?_, ?_, rfl⟩
  · intro b fs' hw t ht
    rw [writeFile_found hp hw] at ht
    cases ht
    rfl
  · intro payload fs' hw t ht
    rw [writeFile_found hp hw] at ht
    cases ht
    rfl
  · intro fs' hw t ht
    rw [Mkdir_found hp hw] at ht
    cases ht
    rfl
  · intro fs' hw hmiss t ht
    unfold FileSet.MkdirAll at hw
    split at hw
    · exact absurd hw (by simp)
    · rename_i root' hm
      simp only [Option.some.injEq] at hw
      subst hw
      obtain ⟨t₀, ht₀, hcre⟩ := mkdirAllEntry_created perm (fullPathSplit p) fs.root root' hm
      unfold FileSet.findEntry at ht hmiss
      rw [ht₀] at ht
      simp only [Option.some.injEq] at ht
      subst ht
      obtain ⟨_, hbuf⟩ := hcre hmiss
      unfold FileEntry.Size
      rw [hbuf]
      rfl

/-- Witness for `Size_spec` at `/a.js` on a fresh file set (where the
path is initially missing, so the `MkdirAll` conjunct is exercised
non-vacuously). -/
theorem Size_spec_witness :
    (fullPathSplit "/a.js".toList ≠ ([] : List GoStr)) ∧
    ((∀ b fs', (NewFileSet "m".toList).WriteFile "/a.js".toList 0o644 0 b = some fs' →
       ∀ t, fs'.findEntry "/a.js".toList = some t → t.Size = some (b.length : Int)) ∧
     (∀ payload fs',
        (NewFileSet "m".toList).WriteGzipFile "/a.js".toList 0o644 0 payload = some fs' →
       ∀ t, fs'.findEntry "/a.js".toList = some t →
         t.Size = some (payload.length : Int)) ∧
     (∀ fs', (NewFileSet "m".toList).Mkdir "/a.js".toList 0o644 = some fs' →
       ∀ t, fs'.findEntry "/a.js".toList = some t → t.Size = some 0) ∧
     (∀ fs', (NewFileSet "m".toList).MkdirAll "/a.js".toList 0o644 = some fs' →
       (NewFileSet "m".toList).findEntry "/a.js".toList = none →
       ∀ t, fs'.findEntry "/a.js".toList = some t → t.Size = some 0) ∧
     (NewFileSet "x".toList).root.Size = none) :=
  ⟨by decide,
    Size_spec (NewFileSet "m".toList) "/a.js".toList "x".toList 0o644 0 (by decide)⟩

theorem Size_gzip_cex :
    ∃ fs' f,
      (NewFileSet "m".toList).WriteGzipFile "/a.js".toList 0o644 0 [9, 9] = some fs' ∧
      fs'.Open (fun c => if c = [9, 9] then some [1, 2, 3] else none)
        "/a.js".toList = .ok f ∧
      f.data.length = 3 ∧
      f.Stat.Size ≠ some (3 : Int) :=
  ⟨_, _, rfl, rfl, rfl, by decide⟩

/-- A concrete file entry `a` for the `Readdir` witness. -/
def wEntryA : FileEntry := .mk (some [1]) false "a".toList 0o644 false 0 []

/-- A concrete file entry `b` for the `Readdir` witness. -/
def wEntryB : FileEntry := .mk (some [2]) false "b".toList 0o644 false 0 []

/-- A concrete directory entry with children `[a, b]`. -/
def wDir : FileEntry := .mk (some []) false "d".toList 0o755 true 0 [wEntryA, wEntryB]

/-- The handle obtained by opening `wDir`. -/
def wFile : file := ⟨wDir, [], [wEntryA, wEntryB]⟩

/-- Witness for `Readdir_contract` on a directory with two children. -/
theorem Readdir_contract_witness :
    (wFile.children = wDir.children ∧ wFile.fileEntry = wDir) ∧
    ((wFile.Readdir 1).2.fileEntry = wFile.fileEntry) ∧
    (0 < (1 : Int) → wFile.children ≠ [] →
      wFile.Readdir 1 = (.ok (wFile.children.take (1 : Int).toNat),
        { wFile with children := wFile.children.drop (1 : Int).toNat })) ∧
    (wFile.children ≠ [] → (wFile.children.length : Int) ≤ 1 →
      wFile.Readdir 1 = (.ok wFile.children, { wFile with children := [] })) ∧
    ((1 : Int) ≤ 0 → wFile.children ≠ [] →
      wFile.Readdir 1 = (.ok wFile.children, { wFile with children := [] })) ∧
    (wFile.children = [] → wFile.Readdir 1 = (.error .eof, wFile)) ∧
    ((∀ j ∈ [(1 : Int), 1], 0 < j) →
      (wFile.children.length : Int) ≤ [(1 : Int), 1].sum →
      runReaddir wFile [1, 1] = wFile.children) :=
  Readdir_contract (fun _ => none) wDir wFile wFile 1 [1, 1] (by rfl)

/-! ### Walker (`src/webresource.go:85-157`) -/

/-- `path.Ext` on a single path element, scanned from the end
(the suffix beginning at the final dot, including the dot; empty when
there is no dot). -/
def extRevAux : GoStr → GoStr → GoStr
  | [], _ => []
  | c :: rest, acc =>
      if c = '/' then []
      else if c = '.' then c :: acc
      else extRevAux rest (c :: acc)

/-- `path.Ext base` (`src/webresource.go:136`). -/
def pathExt (s : GoStr) : GoStr := extRevAux s.reverse []

/-- Walker trace events: the walker opening a file on the caller's
behalf, invoking the visit callback (with the decoded data the handle
exposes), and closing the handle.  Only file handles opened for the
callback are traced; the short-lived directory handles are closed right
after `Readdir` and carry no event. -/
inductive WEvent where
  | openF (path : List GoStr)
  | visitF (path : List GoStr) (data : Bytes)
  | closeF (path : List GoStr)
deriving DecidableEq, Repr

/-- Walker errors: a filesystem error (`Open` failure, `Readdir`'s
`io.EOF` on an empty directory, a gzip decode failure) or an error
returned by the visit callback. -/
inductive WalkErr (ε : Type) where
  | fs (e : FsErr)
  | user (e : ε)

mutual

/-- Size measure of a file entry tree, for walker termination. -/
def entSize : FileEntry → Nat
  | .mk _ _ _ _ _ _ cs => entListSize cs + 1

/-- Size measure of a child list. -/
def entListSize : List FileEntry → Nat
  | [] => 0
  | e :: rest => entSize e + entListSize rest

end

theorem entSize_eq (e : FileEntry) : entSize e = entListSize e.children + 1 := by
  cases e
  simp [entSize, FileEntry.children]

theorem entSize_pos (e : FileEntry) : 0 < entSize e := by
  rw [entSize_eq]
  omega

theorem Readdir_neg_ok {f : file} {fis : List FileEntry} {f' : file}
    (h : f.Readdir (-1) = (.ok fis, f')) : fis = f.children := by
  by_cases hnil : f.children = []
  · rw [Readdir_exhausted f (-1) hnil] at h
    exact absurd (congrArg Prod.fst h) (by simp)
  · rw [Readdir_nonpos f (-1) (by omega) hnil] at h
    have := congrArg Prod.fst h
    simp only [] at this
    cases this
    rfl

mutual

/-- `walkDir` (`src/webresource.go:105-157`): open the directory entry,
list it in one `Readdir(-1)` call (closing the directory handle), then
process the listed entries in order — recursing into directories,
skipping files whose `path.Ext` differs from `ext`, and for matching
files opening the file, invoking `fn`, and closing the handle right
after it returns, stopping at the first error.  The source re-opens each
entry through its full slash path; since the constructors keep child
names unique within a directory, that lookup resolves to the listed
child itself, which the embedding walks directly, carrying the path
components alongside.  The first component of the result is the trace of
file open/visit/close events, the second the result of the walk. -/
def walkDir {ε : Type} (gz : Bytes → Option Bytes) (fs : FileSet) (ext : GoStr)
    (fn : FileSet → List GoStr → file → Except ε Unit)
    (parts : List GoStr) (e : FileEntry) :
    List WEvent × Except (WalkErr ε) Unit :=
  match h1 : e.open gz with
  | .error err => ([], .error (.fs err))
  | .ok dirf =>
      match h2 : dirf.Readdir (-1) with
      | (.error err, _) => ([], .error (.fs err))
      | (.ok fis, _) => walkChildren gz fs ext fn parts fis
termination_by 2 * entSize e
decreasing_by
  have he : fis = e.children := by
    rw [Readdir_neg_ok h2, (open_ok h1).2]
  rw [he, entSize_eq]
  omega

/-- The `for _, fi := range fis` loop of `walkDir`
(`src/webresource.go:118-154`). -/
def walkChildren {ε : Type} (gz : Bytes → Option Bytes) (fs : FileSet) (ext : GoStr)
    (fn : FileSet → List GoStr → file → Except ε Unit)
    (parts : List GoStr) : List FileEntry → List WEvent × Except (WalkErr ε) Unit
  | [] => ([], .ok ())
  | fi :: rest =>
      if fi.isDir then
        match walkDir gz fs ext fn (parts ++ [fi.name]) fi with
        | (tr, .error err) => (tr, .error err)
        | (tr, .ok _) =>
            let pr := walkChildren gz fs ext fn parts rest
            (tr ++ pr.1, pr.2)
      else if pathExt fi.name ≠ ext then
        walkChildren gz fs ext fn parts rest
      else
        match fi.open gz with
        | .error err => ([], .error (.fs err))
        | .ok f =>
            match fn fs (parts ++ [fi.name]) f with
            | .error uerr =>
                ([.openF (parts ++ [fi.name]), .visitF (parts ++ [fi.name]) f.data,
                  .closeF (parts ++ [fi.name])], .error (.user uerr))
            | .ok _ =>
                let pr := walkChildren gz fs ext fn parts rest
                ([.openF (parts ++ [fi.name]), .visitF (parts ++ [fi.name]) f.data,
                  .closeF (parts ++ [fi.name])] ++ pr.1, pr.2)
termination_by l => 2 * entListSize l + 1
decreasing_by
  all_goals have h := entSize_pos e
  all_goals simp only [entListSize]
  all_goals omega

end

/-- `Walk` on one module (`src/webresource.go:101-103`): walk from the
root path `/`. -/
def Walk {ε : Type} (gz : Bytes → Option Bytes) (fs : FileSet) (ext : GoStr)
    (fn : FileSet → List GoStr → file → Except ε Unit) :
    List WEvent × Except (WalkErr ε) Unit :=
  walkDir gz fs ext fn [] fs.root

/-- `ModuleList.Walk` (`src/webresource.go:89-97`): walk each module in
the list's order, stopping at the first error. -/
def WalkList {ε : Type} (gz : Bytes → Option Bytes) (ext : GoStr)
    (fn : FileSet → List GoStr → file → Except ε Unit) :
    List FileSet → List WEvent × Except (WalkErr ε) Unit
  | [] => ([], .ok ())
  | m :: rest =>
      match Walk gz m ext fn with
      | (tr, .error err) => (tr, .error err)
      | (tr, .ok _) =>
          let pr := WalkList gz ext fn rest
          (tr ++ pr.1, pr.2)

/-- The trace made of complete open/visit/close triples for the given
path/data pairs. -/
def tripleTrace : List (List GoStr × Bytes) → List WEvent
  | [] => []
  | (p, d) :: rest => .openF p :: .visitF p d :: .closeF p :: tripleTrace rest

theorem tripleTrace_append (l₁ l₂ : List (List GoStr × Bytes)) :
    tripleTrace (l₁ ++ l₂) = tripleTrace l₁ ++ tripleTrace l₂ := by
  induction l₁ with
  | nil => rfl
  | cons pd rest ih =>
    obtain ⟨p, d⟩ := pd
    simp [tripleTrace, ih]

theorem walk_bracketed_aux {ε : Type} (gz : Bytes → Option Bytes) (fs : FileSet)
    (ext : GoStr) (fn : FileSet → List GoStr → file → Except ε Unit) :
    ∀ (n : Nat),
      (∀ (parts : List GoStr) (e : FileEntry), 2 * entSize e ≤ n →
        ∃ l, (walkDir gz fs ext fn parts e).1 = tripleTrace l) ∧
      (∀ (parts : List GoStr) (fis : List FileEntry), 2 * entListSize fis + 1 ≤ n →
        ∃ l, (walkChildren gz fs ext fn parts fis).1 = tripleTrace l) := by
  intro n
  induction n using Nat.strong_induction_on with
  | _ n ih =>
    constructor
    · intro parts e hsize
      rw [walkDir]
      split
      · exact ⟨[], rfl⟩
      · rename_i dirf heq1
        split
        · exact ⟨[], rfl⟩
        · rename_i fis sndf heq2
          have hfis : fis = e.children := by
            rw [Readdir_neg_ok heq2, (open_ok heq1).2]
          have hm : 2 * entListSize fis + 1 < n := by
            have h1 := entSize_eq e
            rw [hfis]
            omega
          exact (ih _ hm).2 parts fis le_rfl
    · intro parts fis hsize
      match fis with
      | [] =>
        rw [walkChildren]
        exact ⟨[], rfl⟩
      | fi :: rest =>
        have hszfi : 2 * entSize fi < n := by
          have := entSize_pos fi
          simp only [entListSize] at hsize
          omega
        have hszrest : 2 * entListSize rest + 1 < n := by
          have := entSize_pos fi
          simp only [entListSize] at hsize
          omega
        rw [walkChildren]
        split
        · split
          · rename_i tr err heq
            obtain ⟨l, hl⟩ := (ih _ hszfi).1 (parts ++ [fi.name]) fi le_rfl
            rw [heq] at hl
            exact ⟨l, hl⟩
          · rename_i tr u heq
            obtain ⟨l, hl⟩ := (ih _ hszfi).1 (parts ++ [fi.name]) fi le_rfl
            rw [heq] at hl
            have hl' : tr = tripleTrace l := hl
            obtain ⟨l2, hl2⟩ := (ih _ hszrest).2 parts rest le_rfl
            exact ⟨l ++ l2, by simp [hl', hl2, tripleTrace_append]⟩
        · split
          · exact (ih _ hszrest).2 parts rest le_rfl
          · split
            · exact ⟨[], rfl⟩
            · rename_i f hf
              split
              · exact ⟨[(parts ++ [fi.name], f.data)], rfl⟩
              · obtain ⟨l2, hl2⟩ := (ih _ hszrest).2 parts rest le_rfl
                exact ⟨(parts ++ [fi.name], f.data) :: l2, by simp [hl2, tripleTrace]⟩

theorem walkDir_bracketed {ε : Type} (gz : Bytes → Option Bytes) (fs : FileSet)
    (ext : GoStr) (fn : FileSet → List GoStr → file → Except ε Unit)
    (parts : List GoStr) (e : FileEntry) :
    ∃ l, (walkDir gz fs ext fn parts e).1 = tripleTrace l :=
  (walk_bracketed_aux gz fs ext fn (2 * entSize e)).1 parts e le_rfl

theorem WalkList_all_ok {ε : Type} (gz : Bytes → Option Bytes) (ext : GoStr)
    (fn : FileSet → List GoStr → file → Except ε Unit) :
    ∀ (ms : List FileSet), (∀ m' ∈ ms, (Walk gz m' ext fn).2 = .ok ()) →
      WalkList gz ext fn ms =
        (ms.flatMap (fun m' => (Walk gz m' ext fn).1), .ok ()) := by
  intro ms
  induction ms with
  | nil => intro _; rfl
  | cons m' rest ih =>
    intro h
    rw [WalkList]
    rcases hw : Walk gz m' ext fn with ⟨tr, r⟩
    have hr : r = .ok () := by
      have := h m' (List.mem_cons_self _ _)
      rw [hw] at this
      exact this
    subst hr
    simp only []
    rw [ih (fun x hx => h x (List.mem_cons.mpr (Or.inr hx)))]
    simp [hw]

theorem WalkList_first_error {ε : Type} (gz : Bytes → Option Bytes) (ext : GoStr)
    (fn : FileSet → List GoStr → file → Except ε Unit) :
    ∀ (ms₁ : List FileSet) (m : FileSet) (ms₂ : List FileSet) (err : WalkErr ε),
      (∀ m' ∈ ms₁, (Walk gz m' ext fn).2 = .ok ()) →
      (Walk gz m ext fn).2 = .error err →
      WalkList gz ext fn (ms₁ ++ m :: ms₂) =
        (ms₁.flatMap (fun m' => (Walk gz m' ext fn).1) ++ (Walk gz m ext fn).1,
         .error err) := by
  intro ms₁
  induction ms₁ with
  | nil =>
    intro m ms₂ err _ h2
    simp only [List.nil_append, List.flatMap_nil]
    rw [WalkList]
    rcases hw : Walk gz m ext fn with ⟨tr, r⟩
    rw [hw] at h2
    simp only [] at h2
    subst h2
    simp [hw]
  | cons m' rest ih =>
    intro m ms₂ err h1 h2
    simp only [List.cons_append]
    rw [WalkList]
    rcases hw : Walk gz m' ext fn with ⟨tr, r⟩
    have hr : r = .ok () := by
      have := h1 m' (List.mem_cons_self _ _)
      rw [hw] at this
      exact this
    subst hr
    simp only []
    rw [ih m ms₂ err (fun x hx => h1 x (List.mem_cons.mpr (Or.inr hx))) h2]
    simp [hw]

theorem WalkList_bracketed {ε : Type} (gz : Bytes → Option Bytes) (ext : GoStr)
    (fn : FileSet → List GoStr → file → Except ε Unit) :
    ∀ (ms : List FileSet), ∃ l, (WalkList gz ext fn ms).1 = tripleTrace l := by
  intro ms
  induction ms with
  | nil => exact ⟨[], rfl⟩
  | cons m' rest ih =>
    rw [WalkList]
    rcases hw : Walk gz m' ext fn with ⟨tr, r⟩
    obtain ⟨l1, hl1⟩ := walkDir_bracketed gz m' ext fn [] m'.root
    have htr : tr = tripleTrace l1 := by
      have h' : (Walk gz m' ext fn).1 = tr := by rw [hw]
      rw [← h']
      exact hl1
    cases r with
    | error err => exact ⟨l1, by simp [htr]⟩
    | ok u =>
      obtain ⟨l2, hl2⟩ := ih
      exact ⟨l1 ++ l2, by simp [htr, hl2, tripleTrace_append]⟩

/-- C8: `ModuleList.Walk` iterates the single-module walk in the list's
order; when every module walks cleanly the traces concatenate in order
with an `ok` result, and as soon as one module's walk yields an error —
be it from opening a path, from listing a directory (`io.EOF` on an
empty directory included), from gzip decoding, or from the visit
callback — that first error is returned as is, nothing after the failing
module is visited, and no aggregation occurs.  Every file handle the
walker opens for the callback is closed immediately after the callback
returns and before the next entry: every trace, of a single walk or of a
list walk, error or not, is a concatenation of complete
open/visit/close triples. -/
theorem WalkList_contract {ε : Type} (gz : Bytes → Option Bytes) (ext : GoStr)
    (fn : FileSet → List GoStr → file → Except ε Unit)
    (ms ms₁ ms₂ : List FileSet) (m fs : FileSet) (err : WalkErr ε) :
    ((∀ m' ∈ ms, (Walk gz m' ext fn).2 = .ok ()) →
      WalkList gz ext fn ms =
        (ms.flatMap (fun m' => (Walk gz m' ext fn).1), .ok ())) ∧
    ((∀ m' ∈ ms₁, (Walk gz m' ext fn).2 = .ok ()) →
      (Walk gz m ext fn).2 = .error err →
      WalkList gz ext fn (ms₁ ++ m :: ms₂) =
        (ms₁.flatMap (fun m' => (Walk gz m' ext fn).1) ++ (Walk gz m ext fn).1,
         .error err)) ∧
    (∃ l, (Walk gz fs ext fn).1 = tripleTrace l) ∧
    (∃ l, (WalkList gz ext fn ms).1 = tripleTrace l) := by
  exact ⟨WalkList_all_ok gz ext fn ms,
    WalkList_first_error gz ext fn ms₁ m ms₂ err,
    walkDir_bracketed gz fs ext fn [] fs.root,
    WalkList_bracketed gz ext fn ms⟩

/-- The trivial gunzip used in walker witnesses (no gzip files appear). -/
def gzW : Bytes → Option Bytes := fun _ => none

/-- A visit callback that always succeeds. -/
def fnW : FileSet → List GoStr → file → Except Unit Unit := fun _ _ _ => .ok ()

/-- A module whose root holds one file `a.js`. -/
def m8A : FileSet :=
  { name := "a".toList
    root := .mk none false ['/'] 0o755 true 0
      [.mk (some [1]) false "a.js".toList 0o644 false 0 []] }

/-- A module with an *empty* root: its walk fails with `io.EOF`. -/
def m8B : FileSet :=
  { name := "b".toList
    root := .mk none false ['/'] 0o755 true 0 [] }

/-- A module whose root holds one file `c.js`; placed after the failing
module, it is never visited. -/
def m8C : FileSet :=
  { name := "c".toList
    root := .mk none false ['/'] 0o755 true 0
      [.mk (some [3]) false "c.js".toList 0o644 false 0 []] }

unseal walkDir walkChildren in
/-- Witness for `WalkList_contract`: module `m8A` walks cleanly; module
`m8B` (empty root) fails with `io.EOF`, and the list walk
`[m8A, m8B, m8C]` returns that error having emitted only the traces of
the modules before and at the failure. -/
theorem WalkList_contract_witness :
    (WalkList gzW ".js".toList fnW [m8A] =
      ([m8A].flatMap (fun m' => (Walk gzW m' ".js".toList fnW).1), .ok ())) ∧
    (WalkList gzW ".js".toList fnW ([m8A] ++ m8B :: [m8C]) =
      ([m8A].flatMap (fun m' => (Walk gzW m' ".js".toList fnW).1) ++
        (Walk gzW m8B ".js".toList fnW).1,
       .error (.fs .eof))) ∧
    (∃ l, (Walk gzW m8A ".js".toList fnW).1 = tripleTrace l) ∧
    (∃ l, (WalkList gzW ".js".toList fnW [m8A]).1 = tripleTrace l) :=
  ⟨(WalkList_contract gzW ".js".toList fnW [m8A] [m8A] [m8C] m8B m8A
      (.fs .eof)).1
    (by intro m' hm; simp only [List.mem_singleton] at hm; subst hm; rfl),
   (WalkList_contract gzW ".js".toList fnW [m8A] [m8A] [m8C] m8B m8A
      (.fs .eof)).2.1
    (by intro m' hm; simp only [List.mem_singleton] at hm; subst hm; rfl)
    (by rfl),
   (WalkList_contract gzW ".js".toList fnW [m8A] [m8A] [m8C] m8B m8A
      (.fs .eof)).2.2.1,
   (WalkList_contract gzW ".js".toList fnW [m8A] [m8A] [m8C] m8B m8A
      (.fs .eof)).2.2.2⟩

mutual

/-- The files the walker visits below a directory entry, in traversal
order: children in creation order, a directory's contents inlined at the
directory's position, and a non-directory child listed exactly when its
`path.Ext` equals the filter. -/
def dfsEntries (ext : GoStr) : FileEntry → List GoStr → List (List GoStr × FileEntry)
  | .mk _ _ _ _ _ _ cs, parts => dfsList ext cs parts

/-- `dfsEntries` over a child list. -/
def dfsList (ext : GoStr) : List FileEntry → List GoStr → List (List GoStr × FileEntry)
  | [], _ => []
  | fi :: rest, parts =>
      (if fi.isDir then dfsEntries ext fi (parts ++ [fi.name])
       else if pathExt fi.name = ext then [(parts ++ [fi.name], fi)] else []) ++
      dfsList ext rest parts

end

mutual

/-- Every directory in the tree has at least one child (the condition
under which the walker's `Readdir(-1)` never reports `io.EOF`). -/
def noEmptyDirs : FileEntry → Bool
  | .mk _ _ _ _ d _ cs => (!d || !cs.isEmpty) && noEmptyDirsList cs

/-- `noEmptyDirs` over a child list. -/
def noEmptyDirsList : List FileEntry → Bool
  | [] => true
  | e :: rest => noEmptyDirs e && noEmptyDirsList rest

end

/-- Whether an `Except` is a success. -/
def isOkB {α β : Type} : Except α β → Bool
  | .ok _ => true
  | .error _ => false

mutual

/-- Every entry in the tree opens without error (in particular every
gzip payload is valid for the codec). -/
def opensOk (gz : Bytes → Option Bytes) : FileEntry → Bool
  | .mk b g n p d t cs =>
      isOkB (FileEntry.open gz (.mk b g n p d t cs)) && opensOkList gz cs

/-- `opensOk` over a child list. -/
def opensOkList (gz : Bytes → Option Bytes) : List FileEntry → Bool
  | [] => true
  | e :: rest => opensOk gz e && opensOkList gz rest

end

theorem dfsEntries_eq (ext : GoStr) (e : FileEntry) (parts : List GoStr) :
    dfsEntries ext e parts = dfsList ext e.children parts := by
  cases e
  simp [dfsEntries, FileEntry.children]

theorem noEmptyDirs_eq (e : FileEntry) :
    noEmptyDirs e = ((!e.isDir || !e.children.isEmpty) && noEmptyDirsList e.children) := by
  cases e
  simp [noEmptyDirs, FileEntry.children, FileEntry.isDir]

theorem opensOk_eq (gz : Bytes → Option Bytes) (e : FileEntry) :
    opensOk gz e = (isOkB (e.open gz) && opensOkList gz e.children) := by
  cases e
  simp [opensOk, FileEntry.children]

theorem opensOk_open {gz : Bytes → Option Bytes} {e : FileEntry}
    (h : opensOk gz e = true) : ∃ f, e.open gz = .ok f := by
  rw [opensOk_eq, Bool.and_eq_true] at h
  rcases hf : e.open gz with err | f
  · rw [hf] at h
    exact absurd h.1 (by simp [isOkB])
  · exact ⟨f, rfl⟩

/-- The decoded contents an entry's handle exposes. -/
def openData (gz : Bytes → Option Bytes) (e : FileEntry) : Bytes :=
  match e.open gz with
  | .ok f => f.data
  | .error _ => []

/-- The trace the walker is specified to emit for the given visit list. -/
def expectedTrace (gz : Bytes → Option Bytes)
    (ps : List (List GoStr × FileEntry)) : List WEvent :=
  ps.flatMap (fun pe => [.openF pe.1, .visitF pe.1 (openData gz pe.2), .closeF pe.1])

theorem expectedTrace_append (gz : Bytes → Option Bytes)
    (l₁ l₂ : List (List GoStr × FileEntry)) :
    expectedTrace gz (l₁ ++ l₂) = expectedTrace gz l₁ ++ expectedTrace gz l₂ := by
  simp [expectedTrace]

theorem walk_order_aux {ε : Type} (gz : Bytes → Option Bytes) (fs : FileSet)
    (ext : GoStr) (fn : FileSet → List GoStr → file → Except ε Unit)
    (hfn : ∀ q f, fn fs q f = .ok ()) :
    ∀ (n : Nat),
      (∀ (parts : List GoStr) (e : FileEntry), 2 * entSize e ≤ n →
        e.isDir = true → noEmptyDirs e = true → opensOk gz e = true →
        walkDir gz fs ext fn parts e =
          (expectedTrace gz (dfsEntries ext e parts), .ok ())) ∧
      (∀ (parts : List GoStr) (fis : List FileEntry), 2 * entListSize fis + 1 ≤ n →
        noEmptyDirsList fis = true → opensOkList gz fis = true →
        walkChildren gz fs ext fn parts fis =
          (expectedTrace gz (dfsList ext fis parts), .ok ())) := by
  intro n
  induction n using Nat.strong_induction_on with
  | _ n ih =>
    constructor
    · intro parts e hsize hdir hne hok
      have hchildren : e.children ≠ [] := by
        rw [noEmptyDirs_eq, Bool.and_eq_true] at hne
        have h1 := hne.1
        rw [hdir] at h1
        simp only [Bool.not_true, Bool.false_or] at h1
        intro hc
        rw [hc] at h1
        simp at h1
      rw [walkDir]
      split
      · rename_i err heq
        obtain ⟨f, hf⟩ := opensOk_open hok
        rw [hf] at heq
        exact absurd heq (by simp)
      · rename_i dirf heq1
        have hdc : dirf.children = e.children := (open_ok heq1).2
        split
        · rename_i err snd heq2
          rw [Readdir_nonpos dirf (-1) (by omega) (by rw [hdc]; exact hchildren)]
            at heq2
          exact absurd (congrArg Prod.fst heq2) (by simp)
        · rename_i fis snd heq2
          have hfis : fis = e.children := by
            rw [Readdir_neg_ok heq2, hdc]
          have hm : 2 * entListSize fis + 1 < n := by
            have h1 := entSize_eq e
            rw [hfis]
            omega
          rw [dfsEntries_eq, ← hfis]
          refine (ih _ hm).2 parts fis le_rfl ?_ ?_
          · rw [hfis]
            rw [noEmptyDirs_eq, Bool.and_eq_true] at hne
            exact hne.2
          · rw [hfis]
            rw [opensOk_eq, Bool.and_eq_true] at hok
            exact hok.2
    · intro parts fis hsize hne hok
      match fis with
      | [] =>
        rw [walkChildren]
        rfl
      | fi :: rest =>
        have hne' : noEmptyDirs fi = true ∧ noEmptyDirsList rest = true := by
          simpa [noEmptyDirsList, Bool.and_eq_true] using hne
        have hok' : opensOk gz fi = true ∧ opensOkList gz rest = true := by
          simpa [opensOkList, Bool.and_eq_true] using hok
        have hszfi : 2 * entSize fi < n := by
          have := entSize_pos fi
          simp only [entListSize] at hsize
          omega
        have hszrest : 2 * entListSize rest + 1 < n := by
          have := entSize_pos fi
          simp only [entListSize] at hsize
          omega
        have hrest := (ih _ hszrest).2 parts rest le_rfl hne'.2 hok'.2
        rw [walkChildren]
        split
        · rename_i hisdir
          have hfi := (ih _ hszfi).1 (parts ++ [fi.name]) fi le_rfl hisdir
            hne'.1 hok'.1
          split
          · rename_i tr err heq
            rw [hfi] at heq
            exact absurd (congrArg Prod.snd heq) (by simp)
          · rename_i tr u heq
            rw [hfi] at heq
            have htr : tr = expectedTrace gz (dfsEntries ext fi (parts ++ [fi.name])) :=
              (congrArg Prod.fst heq).symm
            simp only [dfsList, if_pos hisdir, expectedTrace_append]
            rw [htr, hrest]
        · rename_i hisdir
          split
          · rename_i hext
            simp only [dfsList, if_neg hisdir, if_neg hext, List.nil_append]
            exact hrest
          · rename_i hext
            push_neg at hext
            split
            · rename_i err heqo
              obtain ⟨f, hf⟩ := opensOk_open hok'.1
              rw [hf] at heqo
              exact absurd heqo (by simp)
            · rename_i f heqo
              split
              · rename_i uerr hequ
                rw [hfn _ _] at hequ
                exact absurd hequ (by simp)
              · rename_i u hequ
                have hod : openData gz fi = f.data := by
                  unfold openData
                  rw [heqo]
                simp only [dfsList, if_neg hisdir, if_pos hext]
                rw [hrest]
                simp [expectedTrace, hod]

mutual

theorem dfsEntries_files (ext : GoStr) :
    ∀ (e : FileEntry) (parts : List GoStr),
      ∀ pe ∈ dfsEntries ext e parts, pe.2.isDir = false ∧ pathExt pe.2.name = ext
  | .mk b g nm p d t cs, parts => by
    intro pe hpe
    rw [dfsEntries] at hpe
    exact dfsList_files ext cs parts pe hpe

theorem dfsList_files (ext : GoStr) :
    ∀ (l : List FileEntry) (parts : List GoStr),
      ∀ pe ∈ dfsList ext l parts, pe.2.isDir = false ∧ pathExt pe.2.name = ext
  | [], parts => by
    intro pe hpe
    rw [dfsList] at hpe
    simp at hpe
  | fi :: rest, parts => by
    intro pe hpe
    rw [dfsList] at hpe
    rcases List.mem_append.mp hpe with h | h
    · by_cases hd : fi.isDir = true
      · rw [if_pos hd] at h
        exact dfsEntries_files ext fi (parts ++ [fi.name]) pe h
      · rw [if_neg hd] at h
        by_cases hx : pathExt fi.name = ext
        · rw [if_pos hx] at h
          simp only [List.mem_singleton] at h
          subst h
          exact ⟨by simpa using hd, hx⟩
        · rw [if_neg hx] at h
          simp at h
    · exact dfsList_files ext rest parts pe h

end

/-- C9 (amended): for a module whose tree contains no empty directory
and whose entries all open successfully, and a visit callback that never
fails, `Walk` traverses the tree depth-first from the root visiting in
child-creation order, invokes the callback exactly for the non-directory
entries whose `path.Ext` equals the filter exactly (case-sensitively,
dot included) and never for a directory; a directory's contents are
visited *inlined at the directory's creation position* (not necessarily
after the module's root-level files); and over a module list the trace is
the concatenation of the per-module traces in the list's order, so a
concatenating visitor sees contents in list (resolver) order. -/
theorem Walk_order {ε : Type} (gz : Bytes → Option Bytes) (ext : GoStr)
    (fn : FileSet → List GoStr → file → Except ε Unit)
    (fs : FileSet) (ms : List FileSet)
    (hfn : ∀ m q f, fn m q f = .ok ())
    (hroot : fs.root.isDir = true) (hne : noEmptyDirs fs.root = true)
    (hok : opensOk gz fs.root = true)
    (hms : ∀ m ∈ ms, m.root.isDir = true ∧ noEmptyDirs m.root = true ∧
      opensOk gz m.root = true) :
    Walk gz fs ext fn = (expectedTrace gz (dfsEntries ext fs.root []), .ok ()) ∧
    (∀ pe ∈ dfsEntries ext fs.root [], pe.2.isDir = false ∧
      pathExt pe.2.name = ext) ∧
    WalkList gz ext fn ms =
      (ms.flatMap (fun m => expectedTrace gz (dfsEntries ext m.root [])), .ok ()) := by
  refine ⟨?_, dfsEntries_files ext fs.root [], ?_⟩
  · exact (walk_order_aux gz fs ext fn (hfn fs) (2 * entSize fs.root)).1
      [] fs.root le_rfl hroot hne hok
  · induction ms with
    | nil => rfl
    | cons m rest ih =>
      rw [WalkList]
      have hm := hms m (List.mem_cons_self _ _)
      have hw : Walk gz m ext fn =
          (expectedTrace gz (dfsEntries ext m.root []), .ok ()) :=
        (walk_order_aux gz m ext fn (hfn m) (2 * entSize m.root)).1
          [] m.root le_rfl hm.1 hm.2.1 hm.2.2
      rw [hw]
      simp only []
      rw [ih (fun x hx => hms x (List.mem_cons.mpr (Or.inr hx)))]
      simp

/-- The repository's walker-test module `d`: a single subdirectory with
`d1.js` and `d2.js`. -/
def tFsD : FileSet :=
  { name := "d".toList
    root := .mk none false ['/'] 0o755 true 0
      [.mk (some []) false "subdir".toList 0o755 true 0
        [.mk (some [1]) false "d1.js".toList 0o644 false 0 [],
         .mk (some [2]) false "d2.js".toList 0o644 false 0 []]] }

/-- Witness for `Walk_order` on the repository's walker test module. -/
theorem Walk_order_witness :
    Walk gzW tFsD ".js".toList fnW =
      (expectedTrace gzW (dfsEntries ".js".toList tFsD.root []), .ok ()) ∧
    (∀ pe ∈ dfsEntries ".js".toList tFsD.root [],
      pe.2.isDir = false ∧ pathExt pe.2.name = ".js".toList) ∧
    WalkList gzW ".js".toList fnW [tFsD] =
      ([tFsD].flatMap
        (fun m => expectedTrace gzW (dfsEntries ".js".toList m.root [])), .ok ()) :=
  Walk_order gzW ".js".toList fnW tFsD [tFsD] (fun _ _ _ => rfl)
    (by decide) (by decide) (by decide) (by decide)

unseal walkDir walkChildren in
/-- C9 counterexample: within one module, directory contents are *not*
always visited after the module's root-level files.  In a module where
the directory `sub` (holding `x.js`) was created before the root-level
file `a.js`, the walker visits `/sub/x.js` before `/a.js`. -/
theorem walk_subdir_before_rootfile :
    ∃ fs₁ fs₂ fs₃,
      (NewFileSet "c".toList).Mkdir "/sub".toList 0o755 = some fs₁ ∧
      fs₁.WriteFile "/sub/x.js".toList 0o644 0 [1] = some fs₂ ∧
      fs₂.WriteFile "/a.js".toList 0o644 0 [2] = some fs₃ ∧
      (Walk gzW fs₃ ".js".toList fnW).1 =
        [.openF ["sub".toList, "x.js".toList],
         .visitF ["sub".toList, "x.js".toList] [1],
         .closeF ["sub".toList, "x.js".toList],
         .openF ["a.js".toList], .visitF ["a.js".toList] [2],
         .closeF ["a.js".toList]] ∧
      ([["sub".toList, "x.js".toList], ["a.js".toList]] :
          List (List GoStr)) ≠ [["a.js".toList], ["sub".toList, "x.js".toList]] :=
  ⟨_, _, _, rfl, rfl, rfl, by rfl, by decide⟩

/-- The public build operations of the constructor interface. -/
inductive BuildOp where
  | mkdirOp (p : GoStr) (perm : Nat)
  | mkdirAllOp (p : GoStr) (perm : Nat)
  | writeOp (p : GoStr) (perm mt : Nat) (b : Bytes)
  | writeGzOp (p : GoStr) (perm mt : Nat) (b : Bytes)

/-- Apply one build operation. -/
def applyOp (fs : FileSet) : BuildOp → Option FileSet
  | .mkdirOp p perm => fs.Mkdir p perm
  | .mkdirAllOp p perm => fs.MkdirAll p perm
  | .writeOp p perm mt b => fs.WriteFile p perm mt b
  | .writeGzOp p perm mt b => fs.WriteGzipFile p perm mt b

/-- Apply a construction sequence, stopping at the first panic. -/
def applyOps (fs : FileSet) : List BuildOp → Option FileSet
  | [] => some fs
  | op :: rest =>
      match applyOp fs op with
      | none => none
      | some fs' => applyOps fs' rest

mutual

/-- Every entry in the tree has a non-nil contents buffer. -/
def allBufs : FileEntry → Bool
  | .mk b _ _ _ _ _ cs => b.isSome && allBufsList cs

/-- `allBufs` over a child list. -/
def allBufsList : List FileEntry → Bool
  | [] => true
  | e :: rest => allBufs e && allBufsList rest

end

theorem allBufs_eq (e : FileEntry) :
    allBufs e = (e.buf.isSome && allBufsList e.children) := by
  cases e
  simp [allBufs, FileEntry.buf, FileEntry.children]

theorem allBufsList_iff (cs : List FileEntry) :
    allBufsList cs = true ↔ ∀ c ∈ cs, allBufs c = true := by
  induction cs with
  | nil => simp [allBufsList]
  | cons e rest ih => simp [allBufsList, Bool.and_eq_true, ih]

theorem mem_replaceNamed :
    ∀ {cs : List FileEntry} {p : GoStr} {t' x : FileEntry},
      x ∈ replaceNamed cs p t' → x ∈ cs ∨ x = t' := by
  intro cs
  induction cs with
  | nil => intro p t' x h; exact absurd h (by simp [replaceNamed])
  | cons e rest ih =>
    intro p t' x h
    unfold replaceNamed at h
    split at h
    · rcases List.mem_cons.mp h with h' | h'
      · exact Or.inr h'
      · exact Or.inl (List.mem_cons.mpr (Or.inr h'))
    · rcases List.mem_cons.mp h with h' | h'
      · exact Or.inl (h' ▸ List.mem_cons_self _ _)
      · rcases ih h' with h'' | h''
        · exact Or.inl (List.mem_cons.mpr (Or.inr h''))
        · exact Or.inr h''

theorem modifyEntry_allBufs (parts : List GoStr) :
    ∀ (e : FileEntry) (f : FileEntry → Option FileEntry) (e' : FileEntry),
      (∀ x y, f x = some y →
        y.buf = x.buf ∧ (allBufsList x.children = true → allBufsList y.children = true)) →
      modifyEntry parts e f = some e' →
      e'.buf = e.buf ∧
      (allBufsList e.children = true → allBufsList e'.children = true) := by
  induction parts with
  | nil =>
    intro e f e' hf h
    simp only [modifyEntry] at h
    exact hf e e' h
  | cons p rest ih =>
    intro e f e' hf h
    simp only [modifyEntry] at h
    split at h
    · exact absurd h (by simp)
    · rename_i e2 he2
      split at h
      · exact absurd h (by simp)
      · rename_i e2' he2'
        simp only [Option.some.injEq] at h
        subst h
        obtain ⟨hbuf, hch⟩ := ih e2 f e2' hf he2'
        refine ⟨withChildren_buf _ _, ?_⟩
        intro hall
        rw [withChildren_children]
        rw [allBufsList_iff]
        intro c hc
        have he2ok : allBufs e2 = true :=
          (allBufsList_iff e.children).mp hall e2 (entryWithName_mem he2)
        have he2'ok : allBufs e2' = true := by
          rw [allBufs_eq, Bool.and_eq_true]
          rw [allBufs_eq, Bool.and_eq_true] at he2ok
          exact ⟨hbuf ▸ he2ok.1, hch he2ok.2⟩
        rcases mem_replaceNamed hc with h' | h'
        · exact (allBufsList_iff e.children).mp hall c h'
        · exact h' ▸ he2'ok

theorem mkdirAllEntry_allBufs (perm : Nat) :
    ∀ (parts : List GoStr) (e e' : FileEntry),
      mkdirAllEntry perm parts e = some e' →
      e'.buf = e.buf ∧
      (allBufsList e.children = true → allBufsList e'.children = true) := by
  intro parts
  induction parts with
  | nil =>
    intro e e' h
    simp only [mkdirAllEntry, Option.some.injEq] at h
    subst h
    exact ⟨rfl, fun h => h⟩
  | cons p rest ih =>
    intro e e' h
    unfold mkdirAllEntry at h
    split at h
    · rename_i sube hsube
      split at h
      · exact absurd h (by simp)
      · rename_i sube' hsube'
        simp only [Option.some.injEq] at h
        subst h
        obtain ⟨hbuf, hch⟩ := ih sube sube' hsube'
        refine ⟨withChildren_buf _ _, ?_⟩
        intro hall
        rw [withChildren_children, allBufsList_iff]
        intro c hc
        have hsok : allBufs sube = true :=
          (allBufsList_iff e.children).mp hall sube (entryWithName_mem hsube)
        have hs'ok : allBufs sube' = true := by
          rw [allBufs_eq, Bool.and_eq_true]
          rw [allBufs_eq, Bool.and_eq_true] at hsok
          exact ⟨hbuf ▸ hsok.1, hch hsok.2⟩
        rcases mem_replaceNamed hc with h' | h'
        · exact (allBufsList_iff e.children).mp hall c h'
        · exact h' ▸ hs'ok
    · split at h
      · exact absurd h (by simp)
      · rename_i ne hnew
        split at h
        · exact absurd h (by simp)
        · rename_i ne' hne'
          simp only [Option.some.injEq] at h
          subst h
          unfold newFileEntry at hnew
          split at hnew
          · exact absurd hnew (by simp)
          · simp only [Option.some.injEq] at hnew
            subst hnew
            obtain ⟨hbuf, hch⟩ := ih _ ne' hne'
            refine ⟨withChildren_buf _ _, ?_⟩
            intro hall
            rw [withChildren_children, allBufsList_iff]
            intro c hc
            rcases List.mem_append.mp hc with h' | h'
            · exact (allBufsList_iff e.children).mp hall c h'
            · simp only [List.mem_singleton] at h'
              subst h'
              rw [allBufs_eq, Bool.and_eq_true]
              refine ⟨hbuf ▸ rfl, hch (by rfl)⟩

/-- The invariant `NewFileSet` establishes and every build operation
preserves: the root keeps its nil buffer, and every other entry has a
non-nil buffer. -/
def RootOk (fs : FileSet) : Prop :=
  fs.root.buf = none ∧ allBufsList fs.root.children = true

theorem append_f_allBufs {base : GoStr} {mknew : Option FileEntry}
    {post : FileEntry → FileEntry}
    (hok : ∀ e, mknew = some e → allBufs (post e) = true) :
    ∀ (x y : FileEntry),
      (if ¬ x.isDir then none
       else if (entryWithName x.children base).isSome then none
       else match mknew with
         | none => none
         | some e => some (x.withChildren (x.children ++ [post e]))) = some y →
      y.buf = x.buf ∧
      (allBufsList x.children = true → allBufsList y.children = true) := by
  intro x y hxy
  by_cases hd : ¬ x.isDir = true
  · rw [if_pos hd] at hxy
    exact absurd hxy (by simp)
  · rw [if_neg hd] at hxy
    by_cases he : (entryWithName x.children base).isSome = true
    · rw [if_pos he] at hxy
      exact absurd hxy (by simp)
    · rw [if_neg he] at hxy
      rcases hmk : mknew with _ | ne
      · rw [hmk] at hxy
        exact absurd hxy (by simp)
      · rw [hmk] at hxy
        simp only [Option.some.injEq] at hxy
        subst hxy
        refine ⟨withChildren_buf _ _, ?_⟩
        intro hall
        rw [withChildren_children, allBufsList_iff]
        intro c hc
        rcases List.mem_append.mp hc with h' | h'
        · exact (allBufsList_iff x.children).mp hall c h'
        · simp only [List.mem_singleton] at h'
          subst h'
          exact hok ne hmk

theorem newFileEntry_allBufs {name : GoStr} {b : Bytes} {perm mt : Nat}
    {d : Bool} {e : FileEntry}
    (h : newFileEntry name b perm d mt = some e) : allBufs e = true := by
  unfold newFileEntry at h
  split at h
  · exact absurd h (by simp)
  · simp only [Option.some.injEq] at h
    subst h
    rfl

theorem withGzipped_allBufs {e : FileEntry} {g : Bool}
    (h : allBufs e = true) : allBufs (e.withGzipped g) = true := by
  cases e
  simpa [allBufs, FileEntry.withGzipped] using h

theorem Mkdir_rootOk {fs fs' : FileSet} {p : GoStr} {perm : Nat}
    (hinv : RootOk fs) (h : fs.Mkdir p perm = some fs') : RootOk fs' := by
  unfold FileSet.Mkdir at h
  split at h
  · exact absurd h (by simp)
  · rename_i root' hm
    simp only [Option.some.injEq] at h
    subst h
    obtain ⟨hbuf, hch⟩ := modifyEntry_allBufs (splitDirBase p).1 fs.root _ root'
      (append_f_allBufs (fun e he => newFileEntry_allBufs he)) hm
    exact ⟨hbuf ▸ hinv.1, hch hinv.2⟩

theorem writeFile_rootOk {fs fs' : FileSet} {p : GoStr} {perm mt : Nat}
    {b : Bytes} {g : Bool}
    (hinv : RootOk fs) (h : fs.writeFile p perm mt b g = some fs') : RootOk fs' := by
  unfold FileSet.writeFile at h
  split at h
  · exact absurd h (by simp)
  · rename_i root' hm
    simp only [Option.some.injEq] at h
    subst h
    obtain ⟨hbuf, hch⟩ := modifyEntry_allBufs (splitDirBase p).1 fs.root _ root'
      (append_f_allBufs
        (fun e he => withGzipped_allBufs (newFileEntry_allBufs he))) hm
    exact ⟨hbuf ▸ hinv.1, hch hinv.2⟩

theorem MkdirAll_rootOk {fs fs' : FileSet} {p : GoStr} {perm : Nat}
    (hinv : RootOk fs) (h : fs.MkdirAll p perm = some fs') : RootOk fs' := by
  unfold FileSet.MkdirAll at h
  split at h
  · exact absurd h (by simp)
  · rename_i root' hm
    simp only [Option.some.injEq] at h
    subst h
    obtain ⟨hbuf, hch⟩ := mkdirAllEntry_allBufs perm (fullPathSplit p) fs.root root' hm
    exact ⟨hbuf ▸ hinv.1, hch hinv.2⟩

theorem applyOp_rootOk {fs fs' : FileSet} {op : BuildOp}
    (hinv : RootOk fs) (h : applyOp fs op = some fs') : RootOk fs' := by
  cases op with
  | mkdirOp p perm => exact Mkdir_rootOk hinv h
  | mkdirAllOp p perm => exact MkdirAll_rootOk hinv h
  | writeOp p perm mt b => exact writeFile_rootOk hinv h
  | writeGzOp p perm mt b => exact writeFile_rootOk hinv h

theorem applyOps_rootOk :
    ∀ (ops : List BuildOp) (fs fs' : FileSet),
      RootOk fs → applyOps fs ops = some fs' → RootOk fs' := by
  intro ops
  induction ops with
  | nil =>
    intro fs fs' hinv h
    simp only [applyOps, Option.some.injEq] at h
    exact h ▸ hinv
  | cons op rest ih =>
    intro fs fs' hinv h
    simp only [applyOps] at h
    split at h
    · exact absurd h (by simp)
    · rename_i fs₁ hop
      exact ih fs₁ fs' (applyOp_rootOk hinv hop) h

theorem findEntryFrom_allBufs :
    ∀ (parts : List GoStr) (e t : FileEntry),
      allBufsList e.children = true → parts ≠ [] →
      findEntryFrom e parts = some t → allBufs t = true := by
  intro parts
  induction parts with
  | nil => intro e t _ hne _; exact absurd rfl hne
  | cons p rest ih =>
    intro e t hall _ h
    simp only [findEntryFrom] at h
    split at h
    · exact absurd h (by simp)
    · rename_i e2 he2
      have he2ok : allBufs e2 = true :=
        (allBufsList_iff e.children).mp hall e2 (entryWithName_mem he2)
      rcases hrest : rest with _ | ⟨q, qs⟩
      · subst hrest
        simp only [findEntryFrom, Option.some.injEq] at h
        exact h ▸ he2ok
      · subst hrest
        refine ih e2 t ?_ (by simp) h
        rw [allBufs_eq, Bool.and_eq_true] at he2ok
        exact he2ok.2

/-- C10: every entry created through `Mkdir`, `MkdirAll`, `WriteFile` or
`WriteGzipFile` carries a non-nil buffer (`bytes.NewBuffer` is always
called), so `Size` is panic-free on all of them; but the root created by
`NewFileSet` alone keeps a nil buffer, so `Size` on the root — reachable
at the public interface as `Open("/")` followed by `Stat` — dereferences
a nil pointer and panics (`none`). -/
theorem build_size_safety (nm : GoStr) (ops : List BuildOp) (fs' : FileSet)
    (h : applyOps (NewFileSet nm) ops = some fs') :
    fs'.root.buf = none ∧
    fs'.root.Size = none ∧
    (∀ gunzip, (fs'.Open gunzip ['/']).map (fun f => f.Stat.Size) = .ok none) ∧
    (∀ p t, fs'.findEntry p = some t → fullPathSplit p ≠ [] →
      t.Size.isSome = true) := by
  have hinv : RootOk fs' := applyOps_rootOk ops (NewFileSet nm) fs' ⟨rfl, rfl⟩ h
  refine ⟨hinv.1, ?_, ?_, ?_⟩
  · unfold FileEntry.Size
    rw [hinv.1]
    rfl
  · intro gunzip
    have hfe : fs'.findEntry ['/'] = some fs'.root := by
      unfold FileSet.findEntry
      rw [show fullPathSplit ['/'] = [] from rfl]
      rfl
    have hopen : fs'.Open gunzip ['/'] = .ok ⟨fs'.root, [], fs'.root.children⟩ := by
      unfold FileSet.Open
      rw [hfe]
      show fs'.root.open gunzip = _
      unfold FileEntry.open
      rw [hinv.1]
    rw [hopen]
    show Except.ok (fs'.root).Size = Except.ok none
    unfold FileEntry.Size
    rw [hinv.1]
    rfl
  · intro p t hf hne
    have hok := findEntryFrom_allBufs (fullPathSplit p) fs'.root t hinv.2 hne hf
    rw [allBufs_eq, Bool.and_eq_true] at hok
    unfold FileEntry.Size
    rcases hb : t.buf with _ | b
    · rw [hb] at hok
      exact absurd hok.1 (by simp)
    · simp

/-- The build sequence of the C10 witness: one directory, one file. -/
def opsW : List BuildOp :=
  [.mkdirOp "/files".toList 0o755, .writeOp "/files/demo.js".toList 0o644 7 [5]]

/-- The file set `opsW` produces from a fresh `NewFileSet`. -/
def fsW10 : FileSet :=
  { name := "m".toList
    root := .mk none false ['/'] 0o755 true 0
      [.mk (some []) false "files".toList 0o755 true 0
        [.mk (some [5]) false "demo.js".toList 0o644 false 7 []]] }

/-- Witness for `build_size_safety` at a concrete build sequence. -/
theorem build_size_safety_witness :
    applyOps (NewFileSet "m".toList) opsW = some fsW10 ∧
    (fsW10.root.buf = none ∧
     fsW10.root.Size = none ∧
     (∀ gunzip, (fsW10.Open gunzip ['/']).map (fun f => f.Stat.Size) = .ok none) ∧
     (∀ p t, fsW10.findEntry p = some t → fullPathSplit p ≠ [] →
       t.Size.isSome = true)) :=
  ⟨rfl, build_size_safety "m".toList opsW fsW10 rfl⟩

end Webresource

